import Mathlib

/-!
Verification of the data-aggregator batch aggregation engine.

This file gives a shallow embedding (in Lean 4) of the parts of the
`data_aggregator` Python package that the specification talks about:

* `core.py`   — `_sanitize_s3_key`, `HashingFileWrapper`,
                `create_tar_gz_bundle_stream`, `process_and_stage_batch`;
* `app.py`    — `_make_idempotency_key`, `_get_message_ids_for_s3_records`,
                `_process_valid_records`;
* `security.py` — `sanitize_s3_key`;
* `schemas.py`  — the pydantic validation of S3 event records;
* `config.py`   — the relevant configuration values and defaults.

Strings are modelled as lists of Unicode code points (`List Char`), byte
streams as lists of naturals (`List Nat`).  The gzip compressor and the
SHA-256 function are abstract parameters: the theorems below are about
the plumbing of bytes, hashes, records and failure sets, which is what
the specification claims describe, never about the compression itself.
-/

namespace DataAggregator

abbrev Key := List Char
abbrev Bytes := List Nat
abbrev MsgId := List Char

/-! ## Shared character-level helpers -/

/-- Number of bytes of the UTF-8 encoding of one code point. -/
def utf8CharLen (c : Char) : Nat :=
  if c.toNat < 0x80 then 1
  else if c.toNat < 0x800 then 2
  else if c.toNat < 0x10000 then 3
  else 4

/-- `len(key.encode("utf-8"))`. -/
def utf8Length (k : Key) : Nat := (k.map utf8CharLen).sum

/-- The ASCII letters accepted by the drive-letter regex `^[a-zA-Z]:`. -/
def isAsciiAlpha (c : Char) : Bool :=
  ('a' ≤ c && c ≤ 'z') || ('A' ≤ c && c ≤ 'Z')

/-- Whether the key starts with a Windows drive letter (`re.match("^[a-zA-Z]:", key)`). -/
def hasDriveLetter : Key → Bool
  | a :: b :: _ => isAsciiAlpha a && b = ':'
  | _ => false

/-- `re.sub(r"^[a-zA-Z]:", "", key)`: drop a leading drive letter. -/
def stripDrive (k : Key) : Key := if hasDriveLetter k then k.drop 2 else k

/-- `key.replace("\\", "/")`. -/
def bs2fs (k : Key) : Key := k.map fun c => if c = '\\' then '/' else c

/-- Python `str.split(sep)` for a one-character separator: keeps empty pieces,
and splitting the empty string yields `[""]`. -/
def pySplit (sep : Char) : Key → List Key
  | [] => [[]]
  | c :: rest =>
    if c = sep then [] :: pySplit sep rest
    else (pySplit sep rest).modifyHead (c :: ·)

/-- The code points stripped by Python `str.strip()` (Unicode whitespace). -/
def pyIsSpace (c : Char) : Bool :=
  let n := c.toNat
  (0x09 ≤ n && n ≤ 0x0D) || (0x1C ≤ n && n ≤ 0x1F) || n = 0x20 ||
  n = 0x85 || n = 0xA0 || n = 0x1680 || (0x2000 ≤ n && n ≤ 0x200A) ||
  n = 0x2028 || n = 0x2029 || n = 0x202F || n = 0x205F || n = 0x3000

/-- Python `str.strip()`. -/
def pyStrip (k : Key) : Key :=
  ((k.dropWhile pyIsSpace).reverse.dropWhile pyIsSpace).reverse

/-! ## `core._sanitize_s3_key` and its `os.path.normpath`

`core.py` has its own, simpler sanitizer used by the archive writer; it
normalizes with POSIX `os.path.normpath` and rejects keys whose normal
form escapes upward. -/

/-- One step of the `posixpath.normpath` component scan.  The accumulator is
the reversed list of kept components. -/
def npStep (absolute : Bool) (acc : List Key) (comp : Key) : List Key :=
  if comp = [] || comp = ['.'] then acc
  else if comp ≠ ['.', '.'] then comp :: acc
  else
    match acc with
    | top :: rest => if top = ['.', '.'] then comp :: acc else rest
    | [] => if absolute then [] else comp :: acc

/-- `posixpath.normpath`. -/
def normpath (p : Key) : Key :=
  if p = [] then ['.']
  else
    let slashes : Nat :=
      if p.head? = some '/' then
        if p.take 3 = ['/', '/', '/'] then 1
        else if p.take 2 = ['/', '/'] then 2
        else 1
      else 0
    let comps := pySplit '/' p
    let newComps := (comps.foldl (npStep (slashes ≠ 0)) []).reverse
    let out := List.replicate slashes '/' ++ List.intercalate ['/'] newComps
    if out = [] then ['.'] else out

/-- `core._sanitize_s3_key`: control/length check, drive strip, backslash
conversion, `normpath`, `lstrip("/")`, and the upward-escape check.
Returns `none` where the Python code raises `ValidationError`. -/
def sanitize_s3_key_core (key : Key) : Option Key :=
  if key.any (fun c => c.toNat < 0x1F) || utf8Length key > 1024 then none
  else
    let pathFwd := bs2fs (stripDrive key)
    let safeKey := (normpath pathFwd).dropWhile (· = '/')
    if safeKey.take 2 = ['.', '.'] || safeKey = [] || safeKey = ['.'] then none
    else some safeKey

/-! ## Data model -/

/-- One S3 event record, with both the post-validation `key` attribute and the
fields used to rebuild the idempotency key (`app.py`). -/
structure S3EventRecord where
  bucketName : Key
  key : Key
  originalKey : Key
  versionId : Option Key
  sequencer : Key
  size : Int
deriving DecidableEq

/-- One entry of the tar archive: name, declared size, streamed content. -/
structure TarEntry where
  name : Key
  size : Int
  content : Bytes
deriving DecidableEq

/-- The configuration fields consumed by the bundling path (`config.py`). -/
structure AppConfig where
  distributionBucket : Key
  timeoutGuardThresholdMs : Nat
  maxBundleOnDiskBytes : Int
  spoolFileMaxSizeBytes : Int
  maxBundleInputBytes : Int

/-- The configuration obtained from `load_from_env` defaults:
guard 10 s, disk cap 400 MiB, spool 64 MiB, input cap 100 MiB. -/
def defaultTestConfig : AppConfig :=
  { distributionBucket := ['d', 'b']
    timeoutGuardThresholdMs := 10 * 1000
    maxBundleOnDiskBytes := 400 * 1048576
    spoolFileMaxSizeBytes := 64 * 1048576
    maxBundleInputBytes := 100 * 1048576 }

/-- Outcome of `s3_client.get_file_content_stream` for one loop iteration:
the body bytes, or one of the mapped S3 exceptions. -/
inductive FetchResult
  | ok (content : Bytes)
  | notFound
  | accessDenied
  | throttling
  | timeoutErr
deriving DecidableEq

/-- The environment of one invocation: per-iteration fetch outcomes and the
Lambda clock `context.get_remaining_time_in_millis()`. -/
structure BundleEnv where
  fetch : Nat → FetchResult
  remainingTimeMs : Nat → Nat

/-! ## `HashingFileWrapper` -/

/-- The tee wrapper of `core.py`: every `write` goes to the underlying spool
file and into the SHA-256 hasher.  `fileBytes` is the spool content,
`hashed` the bytes fed to the hasher so far. -/
structure HashingFileWrapper where
  fileBytes : Bytes
  hashed : Bytes

/-- `HashingFileWrapper.write`: update the hasher, forward to the file. -/
def HashingFileWrapper.write (w : HashingFileWrapper) (data : Bytes) : HashingFileWrapper :=
  { fileBytes := w.fileBytes ++ data, hashed := w.hashed ++ data }

/-! ## The bundling loop of `create_tar_gz_bundle_stream` -/

/-- `((actual_size + 511) // 512) * 512` — tar block padding. -/
def padTo512 (n : Int) : Int := (Int.fdiv (n + 511) 512) * 512

/-- Mutable state of the record loop. -/
structure LoopState where
  idx : Nat
  bytesWritten : Int
  entries : List TarEntry
  processed : List S3EventRecord

/-- The body of one loop iteration after the two budget checks: sanitize,
fetch, size-validate small files, append the tar entry, update tracking.
Every per-record error (`ValidationError`, the S3 exceptions, a size
mismatch) skips the record and moves on. -/
def processOne (cfg : AppConfig) (env : BundleEnv) (st : LoopState)
    (r : S3EventRecord) : LoopState :=
  match sanitize_s3_key_core r.key with
  | none => { st with idx := st.idx + 1 }
  | some safeKey =>
    if r.size < cfg.spoolFileMaxSizeBytes then
      match env.fetch st.idx with
      | .ok content =>
        if (content.length : Int) ≠ r.size then { st with idx := st.idx + 1 }
        else
          { idx := st.idx + 1
            bytesWritten := st.bytesWritten + padTo512 content.length
            entries := st.entries ++ [⟨safeKey, (content.length : Int), content⟩]
            processed := st.processed ++ [r] }
      | _ => { st with idx := st.idx + 1 }
    else
      match env.fetch st.idx with
      | .ok content =>
          { idx := st.idx + 1
            bytesWritten := st.bytesWritten + padTo512 r.size
            entries := st.entries ++ [⟨safeKey, r.size, content⟩]
            processed := st.processed ++ [r] }
      | _ => { st with idx := st.idx + 1 }

/-- The record loop: before each record the time budget and the predicted
disk budget are checked; on violation the loop breaks (second component
`true`), finalizing the archive with what is already in it. -/
def bundleLoop (cfg : AppConfig) (env : BundleEnv) :
    List S3EventRecord → LoopState → LoopState × Bool
  | [], st => (st, false)
  | r :: rest, st =>
    if env.remainingTimeMs st.idx < cfg.timeoutGuardThresholdMs then (st, true)
    else if st.bytesWritten + r.size > cfg.maxBundleOnDiskBytes then (st, true)
    else bundleLoop cfg env rest (processOne cfg env st r)

/-- What `create_tar_gz_bundle_stream` yields: the rewound spool stream, the
hex digest, and the processed records (plus the entries and the stop flag,
which the theorems below inspect). -/
structure BundleResult where
  bytes : Bytes
  sha256hex : Bytes
  processed : List S3EventRecord
  entries : List TarEntry
  stopped : Bool

/-- `create_tar_gz_bundle_stream`.  `gzChunks` abstracts the chunked byte
output of the gzip-compressed PAX tar writer for a given entry list; every
chunk is written through the `HashingFileWrapper`, and the digest is read
only after the compressor is closed and the wrapper flushed. -/
def create_tar_gz_bundle_stream (gzChunks : List TarEntry → List Bytes)
    (sha256 : Bytes → Bytes) (cfg : AppConfig) (env : BundleEnv)
    (records : List S3EventRecord) : BundleResult :=
  let run := bundleLoop cfg env records ⟨0, 0, [], []⟩
  let w := (gzChunks run.1.entries).foldl HashingFileWrapper.write ⟨[], []⟩
  { bytes := w.fileBytes
    sha256hex := sha256 w.hashed
    processed := run.1.processed
    entries := run.1.entries
    stopped := run.2 }

/-! ## `process_and_stage_batch` -/

/-- One call of `s3_client.upload_gzipped_bundle`. -/
structure UploadCall where
  bucket : Key
  key : Key
  body : Bytes
  contentHash : Bytes
deriving DecidableEq

/-- Result of `process_and_stage_batch`: hash, processed, remaining, and the
upload calls that were issued. -/
structure StageResult where
  sha : Bytes
  processed : List S3EventRecord
  remaining : List S3EventRecord
  uploads : List UploadCall
deriving DecidableEq

/-- `process_and_stage_batch`: validate inputs, create the bundle, upload it,
and split the batch into processed and remaining records.  `none` models
the `InvalidS3EventError` / `ValidationError` raises on bad arguments. -/
def process_and_stage_batch (gzChunks : List TarEntry → List Bytes)
    (sha256 : Bytes → Bytes) (cfg : AppConfig) (env : BundleEnv)
    (records : List S3EventRecord) (distributionBucket bundleKey : Key) :
    Option StageResult :=
  if records = [] then none
  else if distributionBucket = [] ∨ bundleKey = [] then none
  else
    let b := create_tar_gz_bundle_stream gzChunks sha256 cfg env records
    some { sha := b.sha256hex
           processed := b.processed
           remaining := records.filter (fun r => r ∉ b.processed)
           uploads := [⟨distributionBucket, bundleKey, b.bytes, b.sha256hex⟩] }

/-! ## `app._make_idempotency_key`

`json.dumps({"k": key, "u": unique_part}, separators=(",", ":"))` followed
by `urllib.parse.quote(raw, safe="")`. -/

def hexDigitLower (n : Nat) : Char :=
  if n < 10 then Char.ofNat (48 + n) else Char.ofNat (87 + n)

def hexDigitUpper (n : Nat) : Char :=
  if n < 10 then Char.ofNat (48 + n) else Char.ofNat (55 + n)

def hex4Lower (n : Nat) : List Char :=
  [hexDigitLower (n / 4096 % 16), hexDigitLower (n / 256 % 16),
   hexDigitLower (n / 16 % 16), hexDigitLower (n % 16)]

def hex2Upper (n : Nat) : List Char :=
  [hexDigitUpper (n / 16 % 16), hexDigitUpper (n % 16)]

def lbrace : Char := Char.ofNat 123

def rbrace : Char := Char.ofNat 125

/-- How `json.dumps` (with the default `ensure_ascii=True`) escapes one
character inside a string literal. -/
def jsonEscapeChar (c : Char) : List Char :=
  if c = '"' then ['\\', '"']
  else if c = '\\' then ['\\', '\\']
  else if c = Char.ofNat 8 then ['\\', 'b']
  else if c = Char.ofNat 9 then ['\\', 't']
  else if c = Char.ofNat 10 then ['\\', 'n']
  else if c = Char.ofNat 12 then ['\\', 'f']
  else if c = Char.ofNat 13 then ['\\', 'r']
  else if 0x20 ≤ c.toNat && c.toNat ≤ 0x7E then [c]
  else if c.toNat ≤ 0xFFFF then '\\' :: 'u' :: hex4Lower c.toNat
  else
    let v := c.toNat - 0x10000
    ('\\' :: 'u' :: hex4Lower (0xD800 + v / 0x400)) ++
      ('\\' :: 'u' :: hex4Lower (0xDC00 + v % 0x400))

/-- A JSON string literal. -/
def jsonStringLit (s : Key) : Key := '"' :: s.flatMap jsonEscapeChar ++ ['"']

/-- `json.dumps({"k": k, "u": u}, separators=(",", ":"))` — compact canonical
JSON of the two-field payload, insertion order `k` then `u`. -/
def jsonDumpsKU (k u : Key) : Key :=
  [lbrace] ++ jsonStringLit ['k'] ++ [':'] ++ jsonStringLit k ++ [','] ++
    jsonStringLit ['u'] ++ [':'] ++ jsonStringLit u ++ [rbrace]

/-- UTF-8 encoding of one code point. -/
def utf8Encode (c : Char) : Bytes :=
  let n := c.toNat
  if n < 0x80 then [n]
  else if n < 0x800 then [0xC0 + n / 64, 0x80 + n % 64]
  else if n < 0x10000 then [0xE0 + n / 4096, 0x80 + n / 64 % 64, 0x80 + n % 64]
  else [0xF0 + n / 262144, 0x80 + n / 4096 % 64, 0x80 + n / 64 % 64, 0x80 + n % 64]

/-- The bytes `urllib.parse.quote` leaves unescaped when `safe=""`:
ASCII letters, digits, `_`, `.`, `-`, `~`. -/
def quoteUnreserved (b : Nat) : Bool :=
  (0x41 ≤ b && b ≤ 0x5A) || (0x61 ≤ b && b ≤ 0x7A) ||
    (0x30 ≤ b && b ≤ 0x39) || b = 0x5F || b = 0x2E || b = 0x2D || b = 0x7E

def quoteByte (b : Nat) : Key :=
  if quoteUnreserved b then [Char.ofNat b] else '%' :: hex2Upper b

/-- `urllib.parse.quote(s, safe="")`. -/
def pctQuote (s : Key) : Key := s.flatMap fun c => (utf8Encode c).flatMap quoteByte

/-- `app._make_idempotency_key`: `unique_part = version or sequencer` (Python
`or`: an absent **or empty** version falls back to the sequencer), then the
percent-encoded compact JSON of `{"k": key, "u": unique_part}`. -/
def make_idempotency_key (key : Key) (version : Option Key) (sequencer : Key) : Key :=
  let uniquePart :=
    match version with
    | some v => if v = [] then sequencer else v
    | none => sequencer
  pctQuote (jsonDumpsKU key uniquePart)

/-- The idempotency key the handler derives from one parsed record. -/
def recordIdempotencyKey (r : S3EventRecord) : Key :=
  make_idempotency_key r.originalKey r.versionId r.sequencer

/-- The unique part as the SPEC words it: the version token when present,
otherwise the sequence token (no falsiness fallback). -/
def specUniquePart (version : Option Key) (sequencer : Key) : Key :=
  match version with
  | some v => v
  | none => sequencer

/-- The idempotency key as the SPEC words it: percent-encode the canonical
compact JSON of `\x7b"k": key, "u": unique_part\x7d`. -/
def specIdempotencyKey (key : Key) (version : Option Key) (sequencer : Key) : Key :=
  pctQuote (jsonDumpsKU key (specUniquePart version sequencer))

/-! ## `app._process_valid_records` -/

/-- `app._get_message_ids_for_s3_records`: union over the records of the
message-id sets filed under each record's reconstructed idempotency key
(`dict.get(key, set())` is the total map `msgMap` with default `∅`). -/
def get_message_ids_for_s3_records (records : List S3EventRecord)
    (msgMap : Key → Finset MsgId) : Finset MsgId :=
  records.foldl (fun acc r => acc ∪ msgMap (recordIdempotencyKey r)) ∅

/-- `app._process_valid_records` (success path of the `try`): bundle and
upload via `process_and_stage_batch`, then return the SQS message ids of
any remaining records, or `∅` when everything was bundled.  A
non-retryable `DataAggregatorError` from the argument validation also
yields `∅` (the `except DataAggregatorError` branch with
`retryable = False`). -/
def process_valid_records (gzChunks : List TarEntry → List Bytes)
    (sha256 : Bytes → Bytes) (cfg : AppConfig) (env : BundleEnv)
    (records : List S3EventRecord) (msgMap : Key → Finset MsgId)
    (bundleKey : Key) : Finset MsgId :=
  match process_and_stage_batch gzChunks sha256 cfg env records
      cfg.distributionBucket bundleKey with
  | some res =>
      if res.remaining = [] then ∅
      else get_message_ids_for_s3_records res.remaining msgMap
  | none => ∅

/-- Step 3–4 of the SQS path of `handler`: the message ids returned by
`_process_valid_records` are unioned into `failed_message_ids`, which
becomes the `batchItemFailures` response. -/
def handlerFailedIds (gzChunks : List TarEntry → List Bytes)
    (sha256 : Bytes → Bytes) (cfg : AppConfig) (env : BundleEnv)
    (records : List S3EventRecord) (msgMap : Key → Finset MsgId)
    (bundleKey : Key) (priorFailed : Finset MsgId) : Finset MsgId :=
  priorFailed ∪ process_valid_records gzChunks sha256 cfg env records msgMap bundleKey

/-! ## `security.sanitize_s3_key`

The full sanitizer used by the pydantic schema validation: length, control,
invisible/format characters, whitespace, drive strip, backslash
normalization, device names, Unicode dot pairs, recursive URL decoding,
traversal, and `PurePosixPath` normalization with the UNC carve-out. -/

/-- The hard-coded `_UNICODE_INVISIBLES` set of `security.py`. -/
def isInvisibleChar (c : Char) : Bool :=
  let n := c.toNat
  n = 0x200B || n = 0x200C || n = 0x200D || n = 0xFEFF ||
  n = 0x202E || n = 0x202D || n = 0x202C || n = 0x2028 || n = 0x2029 ||
  n = 0x00A0 || n = 0x1680

/-- Unicode general category `Cf` (format characters), as reported by
`unicodedata.category`. -/
def isCf (c : Char) : Bool :=
  let n := c.toNat
  n = 0xAD || (0x600 ≤ n && n ≤ 0x605) || n = 0x61C || n = 0x6DD || n = 0x70F ||
  (0x890 ≤ n && n ≤ 0x891) || n = 0x8E2 || n = 0x180E ||
  (0x200B ≤ n && n ≤ 0x200F) || (0x202A ≤ n && n ≤ 0x202E) ||
  (0x2060 ≤ n && n ≤ 0x2064) || (0x2066 ≤ n && n ≤ 0x206F) ||
  n = 0xFEFF || (0xFFF9 ≤ n && n ≤ 0xFFFB) ||
  n = 0x110BD || n = 0x110CD || (0x13430 ≤ n && n ≤ 0x1343F) ||
  (0x1BCA0 ≤ n && n ≤ 0x1BCA3) || (0x1D173 ≤ n && n ≤ 0x1D17A) ||
  n = 0xE0001 || (0xE0020 ≤ n && n ≤ 0xE007F)

/-- ASCII upper-casing, as `str.upper()` acts on the characters relevant to
the Windows device-name comparison. -/
def pyUpperChar (c : Char) : Char :=
  if 'a' ≤ c && c ≤ 'z' then Char.ofNat (c.toNat - 32) else c

/-- `_WINDOWS_DEVICE_NAMES`. -/
def deviceNames : List Key :=
  ["CON", "PRN", "AUX", "NUL",
   "COM1", "COM2", "COM3", "COM4", "COM5", "COM6", "COM7", "COM8", "COM9",
   "LPT1", "LPT2", "LPT3", "LPT4", "LPT5", "LPT6", "LPT7", "LPT8",
   "LPT9"].map String.toList

/-- `part.split(".", 1)[0].upper()`: the upper-cased base name before the
first dot (the whole part when it has no dot). -/
def baseNameUpper (part : Key) : Key :=
  (part.takeWhile (· ≠ '.')).map pyUpperChar

/-- The device-name test applied to one path segment (empty segments are
skipped by the source). -/
def isDevicePart (part : Key) : Bool :=
  decide (part ≠ [] ∧ baseNameUpper part ∈ deviceNames)

/-- The doubled code points of `_UNICODE_DOTS`. -/
def isWideDot (c : Char) : Bool :=
  let n := c.toNat
  n = 0xFF0E || n = 0x3002 || n = 0x2024 || n = 0x2027 || n = 0xFF61

/-- `any(unicode_dots in s for unicode_dots in _UNICODE_DOTS)`: the string
contains two adjacent equal wide-dot characters. -/
def hasUnicodeDotPair : Key → Bool
  | a :: b :: t => (a = b && isWideDot a) || hasUnicodeDotPair (b :: t)
  | _ => false

/-- `s.count("//")`: non-overlapping occurrences, scanned left to right. -/
def countDoubleSlash : Key → Nat
  | a :: b :: t =>
    if a = '/' ∧ b = '/' then countDoubleSlash t + 1 else countDoubleSlash (b :: t)
  | _ => 0

/-! ### `urllib.parse.unquote` -/

def hexVal (c : Char) : Option Nat :=
  if '0' ≤ c && c ≤ '9' then some (c.toNat - 48)
  else if 'a' ≤ c && c ≤ 'f' then some (c.toNat - 87)
  else if 'A' ≤ c && c ≤ 'F' then some (c.toNat - 55)
  else none

/-- A token of the percent-decoder: a literal character, or the byte of a
`%hh` escape. -/
inductive PctTok
  | lit (c : Char)
  | byte (b : Nat)
deriving DecidableEq

/-- Tokenize: each `%hh` with two hex digits becomes a byte; a `%` not
followed by two hex digits stays literal. -/
def pctTokens : List Char → List PctTok
  | [] => []
  | c :: rest =>
    if c = '%' then
      match rest with
      | h1 :: h2 :: rest2 =>
        match hexVal h1, hexVal h2 with
        | some a, some b => .byte (16 * a + b) :: pctTokens rest2
        | _, _ => .lit '%' :: pctTokens (h1 :: h2 :: rest2)
      | [h1] => [.lit '%', .lit h1]
      | [] => [.lit '%']
    else .lit c :: pctTokens rest

def isCont (b : Nat) : Bool := 0x80 ≤ b && b ≤ 0xBF

def fffd : Char := Char.ofNat 0xFFFD

/-- UTF-8 decoding with `errors="replace"`: each maximal invalid subpart is
replaced by one U+FFFD, as in CPython's decoder. -/
def utf8DecodeReplace : List Nat → List Char
  | [] => []
  | b :: rest =>
    if b < 0x80 then Char.ofNat b :: utf8DecodeReplace rest
    else if 0xC2 ≤ b && b ≤ 0xDF then
      match rest with
      | [] => [fffd]
      | b1 :: rest2 =>
        if isCont b1 then
          Char.ofNat ((b - 0xC0) * 0x40 + (b1 - 0x80)) :: utf8DecodeReplace rest2
        else fffd :: utf8DecodeReplace (b1 :: rest2)
    else if b = 0xE0 || (0xE1 ≤ b && b ≤ 0xEF) then
      let lo := if b = 0xE0 then 0xA0 else 0x80
      let hi := if b = 0xED then 0x9F else 0xBF
      match rest with
      | [] => [fffd]
      | b1 :: rest2 =>
        if lo ≤ b1 && b1 ≤ hi then
          match rest2 with
          | [] => [fffd]
          | b2 :: rest3 =>
            if isCont b2 then
              Char.ofNat ((b - 0xE0) * 0x1000 + (b1 - 0x80) * 0x40 + (b2 - 0x80))
                :: utf8DecodeReplace rest3
            else fffd :: utf8DecodeReplace (b2 :: rest3)
        else fffd :: utf8DecodeReplace (b1 :: rest2)
    else if b = 0xF0 || (0xF1 ≤ b && b ≤ 0xF4) then
      let lo := if b = 0xF0 then 0x90 else 0x80
      let hi := if b = 0xF4 then 0x8F else 0xBF
      match rest with
      | [] => [fffd]
      | b1 :: rest2 =>
        if lo ≤ b1 && b1 ≤ hi then
          match rest2 with
          | [] => [fffd]
          | b2 :: rest3 =>
            if isCont b2 then
              match rest3 with
              | [] => [fffd]
              | b3 :: rest4 =>
                if isCont b3 then
                  Char.ofNat ((b - 0xF0) * 0x40000 + (b1 - 0x80) * 0x1000 +
                      (b2 - 0x80) * 0x40 + (b3 - 0x80)) :: utf8DecodeReplace rest4
                else fffd :: utf8DecodeReplace (b3 :: rest4)
            else fffd :: utf8DecodeReplace (b2 :: rest3)
        else fffd :: utf8DecodeReplace (b1 :: rest2)
    else fffd :: utf8DecodeReplace rest

/-- Render the token stream: literal characters pass through; maximal runs
of escape bytes are UTF-8 decoded with replacement.  `pending` buffers the
current byte run. -/
def renderGo (pending : List Nat) : List PctTok → List Char
  | [] => utf8DecodeReplace pending
  | .lit c :: t => utf8DecodeReplace pending ++ c :: renderGo [] t
  | .byte b :: t => renderGo (pending ++ [b]) t

/-- `urllib.parse.unquote(s)` with the default UTF-8 / `errors="replace"`. -/
def unquote (s : Key) : Key := renderGo [] (pctTokens s)

/-- The bounded decode-until-stable loop (`max_iterations = 5`). -/
def decodeLoop : Nat → Key → Key
  | 0, s => s
  | n + 1, s =>
    let t := unquote s
    if t = s then s else decodeLoop n t

/-! ### `PurePosixPath` normalization -/

/-- `str(PurePosixPath(p))`: drop `.` components and empty components,
collapse slashes, keep a root of exactly `//` when the path starts with
two (but not three) slashes, and render the empty path as `.`. -/
def posixNorm (p : Key) : Key :=
  let root : Key :=
    if p.take 2 = ['/', '/'] ∧ p.take 3 ≠ ['/', '/', '/'] then ['/', '/']
    else if p.take 1 = ['/'] then ['/']
    else []
  let parts := (pySplit '/' p).filter fun s => decide (s ≠ [] ∧ s ≠ ['.'])
  if root = [] ∧ parts = [] then ['.']
  else root ++ List.intercalate ['/'] parts

/-- The recursive-decode traversal recheck: when the stable decode of
`key_posix` differs from it, its normalized form must contain neither a
`..` segment nor a Unicode dot pair. -/
def sanitizeDecodeCheck (keyPosix : Key) : Bool :=
  let decoded := decodeLoop 5 keyPosix
  decide (decoded ≠ keyPosix) &&
    ((pySplit '/' (bs2fs decoded)).any (fun part => decide (part = ['.', '.'])) ||
      hasUnicodeDotPair (bs2fs decoded))

/-- The path-normalization stage of `sanitize_s3_key`: the UNC carve-out
(drive letter on the original key, exactly one leading double slash, at
least two components) preserves `//`; every other path is normalized by
`PurePosixPath` and stripped of leading slashes. -/
def sanitizePath (key keyPosix : Key) : Option Key :=
  if hasDriveLetter key ∧ keyPosix.take 2 = ['/', '/'] ∧
      keyPosix.take 3 ≠ ['/', '/', '/'] ∧ countDoubleSlash keyPosix = 1 then
    let uncParts := (pySplit '/' (keyPosix.drop 2)).filter
      fun s => decide (s ≠ [] ∧ s ≠ ['.'])
    if 2 ≤ uncParts.length then some (['/', '/'] ++ List.intercalate ['/'] uncParts)
    else none
  else
    let safePath0 := posixNorm keyPosix
    if safePath0 = ['/'] then none
    else some (safePath0.dropWhile (· = '/'))

/-- The final validation: empty, `.` and `//` results are rejected. -/
def sanitizeFinal (sp : Key) : Option Key :=
  if sp = [] ∨ sp = ['.'] ∨ sp = ['/', '/'] then none else some sp

/-- `security.sanitize_s3_key`.  Returns `none` where the source raises
`ValidationError`, and the safe path otherwise.  The guards appear in
source order; `bs2fs (stripDrive key)` is the `key_posix` of the source. -/
def sanitize_s3_key (key : Key) : Option Key :=
  if utf8Length key > 1024 then none
  else if key.any (fun c => c.toNat < 0x20 || c.toNat = 0x7F) then none
  else if key.any (fun c => isInvisibleChar c || isCf c) then none
  else if pyStrip key ≠ key ∨
      (pySplit '/' key).any (fun part => decide (pyStrip part ≠ part)) then none
  else if (pySplit '/' (bs2fs (stripDrive key))).any isDevicePart then none
  else if hasUnicodeDotPair (bs2fs (stripDrive key)) then none
  else if sanitizeDecodeCheck (bs2fs (stripDrive key)) then none
  else if (pySplit '/' (bs2fs (stripDrive key))).any
      (fun part => decide (part = ['.', '.'])) then none
  else (sanitizePath key (bs2fs (stripDrive key))).bind sanitizeFinal

/-! ## Analysis helpers for the sanitizer idempotence claim -/

/-- Iterated `unquote` (the decode loop applies `unquote` once per round). -/
def iterU : Nat → Key → Key
  | 0, x => x
  | j + 1, x => iterU j (unquote x)

/-- The source width of one decoder token: a literal consumed one character,
an escape byte consumed three. -/
def pctSrcLen : PctTok → Nat
  | .lit _ => 1
  | .byte _ => 3

/-- The characters that separate path segments before and after backslash
normalization. -/
def isSepChar (c : Char) : Bool := c = '/' || c = '\\'

/-- The string contains a decodable escape: a `%` followed by two hex
digits.  `unquote` is the identity exactly on the escape-free strings. -/
def hasEsc : Key → Bool
  | c :: h1 :: h2 :: t =>
    (decide (c = '%') && (hexVal h1).isSome && (hexVal h2).isSome) || hasEsc (h1 :: h2 :: t)
  | _ => false

/-! ## `schemas.py`: pydantic runtime validation of one S3 event record -/

/-- A JSON value as received in the Lambda event body. -/
inductive JVal
  | jnull
  | jstr (s : Key)
  | jint (n : Int)
  | jobj (fields : List (Key × JVal))

/-- First field with the given name (`dict` access). -/
def jget (fields : List (Key × JVal)) (name : Key) : Option JVal :=
  match fields.find? (fun kv => kv.1 = name) with
  | some kv => some kv.2
  | none => none

/-- Digits-only parse of a natural number. -/
def digitsToNat? (s : Key) : Option Nat :=
  if s = [] then none
  else
    s.foldl
      (fun acc c =>
        match acc with
        | none => none
        | some v =>
            if '0' ≤ c ∧ c ≤ '9' then some (v * 10 + (c.toNat - 48)) else none)
      (some 0)

/-- The Unicode `White_Space` code points: what Rust's `str::trim` strips.
pydantic-core trims the string this way before coercing it to an int. -/
def rustIsSpace (c : Char) : Bool :=
  let n := c.toNat
  (0x09 ≤ n && n ≤ 0x0D) || n = 0x20 || n = 0x85 || n = 0xA0 || n = 0x1680 ||
  (0x2000 ≤ n && n ≤ 0x200A) || n = 0x2028 || n = 0x2029 || n = 0x202F ||
  n = 0x205F || n = 0x3000

/-- Rust `str::trim`. -/
def rustTrim (s : Key) : Key :=
  ((s.dropWhile rustIsSpace).reverse.dropWhile rustIsSpace).reverse

/-- Rust's integer `parse` as pydantic-core calls it (`i64`, with a
big-int fallback on the same syntax): an optional ASCII sign followed by
one or more ASCII digits. -/
def parseIntCore? (s : Key) : Option Int :=
  match s with
  | [] => none
  | c :: rest =>
      if c = '-' then (digitsToNat? rest).map (fun n => -(n : Int))
      else if c = '+' then (digitsToNat? rest).map (fun n => (n : Int))
      else (digitsToNat? (c :: rest)).map (fun n => (n : Int))

/-- pydantic-core's `strip_decimal_zeros`: when the string contains a `.`
followed only by zeros (possibly none), drop the fractional part. -/
def stripDecimalZeros (s : Key) : Key :=
  if '.' ∈ s ∧ ((s.dropWhile (· ≠ '.')).drop 1).all (· = '0') then
    s.takeWhile (· ≠ '.')
  else s

/-- Pydantic v2 lax `int` coercion from a string (pydantic-core
`str_as_int` with `clean_int_str`): trim whitespace, then parse an
optionally signed digit string; failing that, strip a trailing all-zero
fractional part (`"5.0"`, `"5."`) and delete underscore digit separators
(`"1_000"`) and parse again. -/
def strToInt? (s : Key) : Option Int :=
  let t := rustTrim s
  match parseIntCore? t with
  | some n => some n
  | none => parseIntCore? ((stripDecimalZeros t).filter (· ≠ '_'))

/-- `size: int` accepts an integer, or a string coercible to one; anything
else fails validation.  The annotation carries no `ge=0` bound, so the sign
is never checked. -/
def asInt : Option JVal → Option Int
  | some (.jint n) => some n
  | some (.jstr s) => strToInt? s
  | _ => none

def asStr : Option JVal → Option Key
  | some (.jstr s) => some s
  | _ => none

/-- The parsed `S3ObjectModel` payload. -/
structure ParsedObject where
  key : Key
  originalKey : Key
  versionId : Option Key
  sequencer : Key
  size : Int

/-- `S3ObjectModel.model_validate` over the object fields: `key` is a
required non-empty string that must pass `sanitize_s3_key` (a raised
`ValidationError` becomes a pydantic error), `size` a required `int`,
`versionId` an optional nullable string, `sequencer` a required string. -/
def validateS3Object (fields : List (Key × JVal)) : Option ParsedObject :=
  match asStr (jget fields "key".toList) with
  | none => none
  | some rawKey =>
    if rawKey = [] then none
    else
      match sanitize_s3_key rawKey with
      | none => none
      | some safeKey =>
        match asInt (jget fields "size".toList) with
        | none => none
        | some size =>
          match asStr (jget fields "sequencer".toList) with
          | none => none
          | some seq =>
            match jget fields "versionId".toList with
            | none =>
                some { key := safeKey, originalKey := rawKey, versionId := none,
                       sequencer := seq, size := size }
            | some .jnull =>
                some { key := safeKey, originalKey := rawKey, versionId := none,
                       sequencer := seq, size := size }
            | some (.jstr v) =>
                some { key := safeKey, originalKey := rawKey, versionId := some v,
                       sequencer := seq, size := size }
            | some _ => none

/-- `S3BucketModel.model_validate`: `name` is a required non-empty string. -/
def validateS3Bucket (fields : List (Key × JVal)) : Option Key :=
  match asStr (jget fields "name".toList) with
  | none => none
  | some name => if name = [] then none else some name

/-- `S3EventNotificationRecord.model_validate` over one record. -/
def validateRecord (j : JVal) : Option S3EventRecord :=
  match j with
  | .jobj fields =>
    match jget fields "s3".toList with
    | some (.jobj sf) =>
      match jget sf "bucket".toList, jget sf "object".toList with
      | some (.jobj bf), some (.jobj objf) =>
        match validateS3Bucket bf, validateS3Object objf with
        | some bname, some po =>
            some { bucketName := bname, key := po.key, originalKey := po.originalKey,
                   versionId := po.versionId, sequencer := po.sequencer,
                   size := po.size }
        | _, _ => none
      | _, _ => none
    | _ => none
  | _ => none

/-! ## Concrete fixtures used by witnesses and counterexamples -/

/-- A small record whose object exists. -/
def recA : S3EventRecord :=
  { bucketName := ['b'], key := "a.bin".toList, originalKey := "a.bin".toList,
    versionId := none, sequencer := "000A".toList, size := 3 }

/-- A small record whose object turns out to be missing. -/
def recB : S3EventRecord :=
  { bucketName := ['b'], key := "d/b.log".toList, originalKey := "d/b.log".toList,
    versionId := none, sequencer := "000B".toList, size := 4 }

/-- Two records that sanitize to the same archive path. -/
def recDup1 : S3EventRecord :=
  { bucketName := ['b'], key := "a.txt".toList, originalKey := "a.txt".toList,
    versionId := none, sequencer := "0001".toList, size := 3 }

def recDup2 : S3EventRecord :=
  { bucketName := ['c'], key := "a.txt".toList, originalKey := "a.txt".toList,
    versionId := none, sequencer := "0002".toList, size := 3 }

/-- A record whose declared size exceeds the 100 MiB input cap. -/
def bigRec : S3EventRecord :=
  { bucketName := ['b'], key := "big.bin".toList, originalKey := "big.bin".toList,
    versionId := none, sequencer := "000C".toList, size := 104857601 }

/-- Environment with ample remaining time where every fetch succeeds with
three bytes. -/
def envOk : BundleEnv :=
  { fetch := fun _ => .ok [1, 2, 3], remainingTimeMs := fun _ => 300000 }

/-- Environment where the clock is already exhausted. -/
def envNoTime : BundleEnv :=
  { fetch := fun _ => .ok [], remainingTimeMs := fun _ => 0 }

/-- Environment where the first fetch succeeds and the second object has
been deleted. -/
def envC1 : BundleEnv :=
  { fetch := fun i => if i = 0 then .ok [1, 2, 3] else .notFound
    remainingTimeMs := fun _ => 300000 }

/-- Environment that returns an empty body for every fetch. -/
def envEmptyBody : BundleEnv :=
  { fetch := fun _ => .ok [], remainingTimeMs := fun _ => 300000 }

/-- Message-id map for the two-envelope batch `[recA, recB]`: `recA` came
from SQS message `m1`, `recB` from `m2`. -/
def msgMapC1 : Key → Finset MsgId := fun k =>
  if k = recordIdempotencyKey recA then {"m1".toList}
  else if k = recordIdempotencyKey recB then {"m2".toList}
  else ∅

/-- A dummy chunked compressor and a dummy digest, used only to instantiate
the abstract parameters in closed evaluations. -/
def gzDummy : List TarEntry → List Bytes := fun _ => []

def shaDummy : Bytes → Bytes := fun b => b

/-! # Theorems -/

/-! ## Generic lemmas about the bundling loop -/

/-- Each loop iteration either skips the record or appends exactly it. -/
theorem processOne_processed (cfg : AppConfig) (env : BundleEnv)
    (st : LoopState) (r : S3EventRecord) :
    (processOne cfg env st r).processed = st.processed ∨
    (processOne cfg env st r).processed = st.processed ++ [r] := by
  unfold processOne
  rcases sanitize_s3_key_core r.key with _ | sk
  · simp
  · dsimp only
    split_ifs with hsmall
    · rcases env.fetch st.idx with c | _ | _ | _ | _ <;> simp only
      · split_ifs <;> simp
      all_goals simp
    · rcases env.fetch st.idx with c | _ | _ | _ | _ <;> simp

/-- Once the governor has fired on a prefix, appending further records
changes nothing: no new record is started. -/
theorem bundleLoop_stop_append (cfg : AppConfig) (env : BundleEnv)
    (l1 l2 : List S3EventRecord) (st : LoopState)
    (h : (bundleLoop cfg env l1 st).2 = true) :
    bundleLoop cfg env (l1 ++ l2) st = bundleLoop cfg env l1 st := by
  induction l1 generalizing st with
  | nil => simp [bundleLoop] at h
  | cons r rest ih =>
      simp only [List.cons_append]
      unfold bundleLoop at h ⊢
      split_ifs at h ⊢
      · rfl
      · rfl
      · exact ih _ h

/-- The records appended by a loop run form a sublist of the input, and a
stopped run never consumes the whole input. -/
theorem bundleLoop_processed_decomp (cfg : AppConfig) (env : BundleEnv)
    (l : List S3EventRecord) (st : LoopState) :
    ∃ d : List S3EventRecord,
      (bundleLoop cfg env l st).1.processed = st.processed ++ d ∧
      d.Sublist l ∧
      ((bundleLoop cfg env l st).2 = true → d.length < l.length) := by
  induction l generalizing st with
  | nil =>
      refine ⟨[], by simp [bundleLoop], by simp, ?_⟩
      simp [bundleLoop]
  | cons r rest ih =>
      unfold bundleLoop
      split_ifs
      · exact ⟨[], by simp, by simp, fun _ => by simp⟩
      · exact ⟨[], by simp, by simp, fun _ => by simp⟩
      · obtain ⟨d, hd, hsub, hlen⟩ := ih (processOne cfg env st r)
        rcases processOne_processed cfg env st r with hpr | hpr
        · exact ⟨d, by rw [hd, hpr], hsub.cons r, fun hs => (hlen hs).trans (by simp)⟩
        · refine ⟨r :: d, ?_, hsub.cons₂ r, fun hs => by
            simpa using Nat.succ_lt_succ (hlen hs)⟩
          rw [hd, hpr]
          simp

/-- Teeing preserves the invariant "hasher input = spool content". -/
theorem foldl_write_hashed_eq (chunks : List Bytes) (w : HashingFileWrapper)
    (h : w.hashed = w.fileBytes) :
    (chunks.foldl HashingFileWrapper.write w).hashed
      = (chunks.foldl HashingFileWrapper.write w).fileBytes := by
  induction chunks generalizing w with
  | nil => exact h
  | cons c cs ih => exact ih _ (by simp [HashingFileWrapper.write, h])

/-- C3: for every batch, the sha256 digest returned by
`create_tar_gz_bundle_stream` is the SHA-256 of exactly the finalized
compressed archive bytes that are yielded for upload: every chunk the
compressor emits is teed into the hasher by `HashingFileWrapper`, the
digest is read only after the compressor is closed and flushed, and the
yielded stream is the same spool content, not a re-read.  This holds for
every compressor chunking `gz` and every digest function `sha`. -/
theorem bundle_hash_is_hash_of_uploaded_bytes (gz : List TarEntry → List Bytes)
    (sha : Bytes → Bytes) (cfg : AppConfig) (env : BundleEnv)
    (records : List S3EventRecord) :
    (create_tar_gz_bundle_stream gz sha cfg env records).sha256hex
      = sha (create_tar_gz_bundle_stream gz sha cfg env records).bytes := by
  simp only [create_tar_gz_bundle_stream]
  exact congrArg sha (foldl_write_hashed_eq _ _ rfl)

/-- C2: once the time budget or the disk budget is violated at some record,
no new record is started (extending the batch beyond the stop point does
not change the run), the archive is finalized with the entries already
written, the upload step still runs on that finalized archive, and the
processed records are a strict subset of the surviving records. -/
theorem governor_graceful_stop (gz : List TarEntry → List Bytes)
    (sha : Bytes → Bytes) (cfg : AppConfig) (env : BundleEnv)
    (l1 l2 : List S3EventRecord) (bundleKey : Key)
    (hstop : (bundleLoop cfg env l1 ⟨0, 0, [], []⟩).2 = true)
    (hb : cfg.distributionBucket ≠ []) (hk : bundleKey ≠ []) :
    bundleLoop cfg env (l1 ++ l2) ⟨0, 0, [], []⟩ = bundleLoop cfg env l1 ⟨0, 0, [], []⟩
    ∧ (create_tar_gz_bundle_stream gz sha cfg env (l1 ++ l2)).processed.Sublist l1
    ∧ (create_tar_gz_bundle_stream gz sha cfg env (l1 ++ l2)).processed.length
        < (l1 ++ l2).length
    ∧ ∃ res : StageResult,
        process_and_stage_batch gz sha cfg env (l1 ++ l2) cfg.distributionBucket
            bundleKey = some res
        ∧ res.uploads = [⟨cfg.distributionBucket, bundleKey,
            (create_tar_gz_bundle_stream gz sha cfg env (l1 ++ l2)).bytes,
            (create_tar_gz_bundle_stream gz sha cfg env (l1 ++ l2)).sha256hex⟩]
        ∧ res.processed = (create_tar_gz_bundle_stream gz sha cfg env (l1 ++ l2)).processed := by
  have happ := bundleLoop_stop_append cfg env l1 l2 ⟨0, 0, [], []⟩ hstop
  have hne : l1 ≠ [] := by
    intro h0
    rw [h0] at hstop
    simp [bundleLoop] at hstop
  obtain ⟨d, hd, hsub, hlen⟩ := bundleLoop_processed_decomp cfg env l1 ⟨0, 0, [], []⟩
  have hproc : (create_tar_gz_bundle_stream gz sha cfg env (l1 ++ l2)).processed = d := by
    simp only [create_tar_gz_bundle_stream, happ]
    simpa using hd
  refine ⟨happ, ?_, ?_, ?_⟩
  · rw [hproc]; exact hsub
  · rw [hproc, List.length_append]
    exact Nat.lt_of_lt_of_le (hlen hstop) (Nat.le_add_right _ _)
  · have hne2 : l1 ++ l2 ≠ [] := fun hc => hne (List.append_eq_nil.mp hc).1
    refine ⟨⟨(create_tar_gz_bundle_stream gz sha cfg env (l1 ++ l2)).sha256hex,
        (create_tar_gz_bundle_stream gz sha cfg env (l1 ++ l2)).processed,
        (l1 ++ l2).filter
          (fun r => r ∉ (create_tar_gz_bundle_stream gz sha cfg env (l1 ++ l2)).processed),
        [⟨cfg.distributionBucket, bundleKey,
          (create_tar_gz_bundle_stream gz sha cfg env (l1 ++ l2)).bytes,
          (create_tar_gz_bundle_stream gz sha cfg env (l1 ++ l2)).sha256hex⟩]⟩,
      ?_, rfl, rfl⟩
    simp only [process_and_stage_batch, if_neg hne2, if_neg (not_or.mpr ⟨hb, hk⟩)]

/-- C2 witness: with an exhausted clock the governor fires on the very first
record of `[recA]`, and the conclusions hold for the batch `[recA, recB]`. -/
theorem governor_graceful_stop_witness :
    ((bundleLoop defaultTestConfig envNoTime [recA] ⟨0, 0, [], []⟩).2 = true
      ∧ defaultTestConfig.distributionBucket ≠ [] ∧ (['k'] : Key) ≠ [])
    ∧ (bundleLoop defaultTestConfig envNoTime ([recA] ++ [recB]) ⟨0, 0, [], []⟩
        = bundleLoop defaultTestConfig envNoTime [recA] ⟨0, 0, [], []⟩
      ∧ (create_tar_gz_bundle_stream gzDummy shaDummy defaultTestConfig envNoTime
          ([recA] ++ [recB])).processed.Sublist [recA]
      ∧ (create_tar_gz_bundle_stream gzDummy shaDummy defaultTestConfig envNoTime
          ([recA] ++ [recB])).processed.length < ([recA] ++ [recB]).length
      ∧ ∃ res : StageResult,
          process_and_stage_batch gzDummy shaDummy defaultTestConfig envNoTime
              ([recA] ++ [recB]) defaultTestConfig.distributionBucket ['k'] = some res
          ∧ res.uploads = [⟨defaultTestConfig.distributionBucket, ['k'],
              (create_tar_gz_bundle_stream gzDummy shaDummy defaultTestConfig envNoTime
                ([recA] ++ [recB])).bytes,
              (create_tar_gz_bundle_stream gzDummy shaDummy defaultTestConfig envNoTime
                ([recA] ++ [recB])).sha256hex⟩]
          ∧ res.processed = (create_tar_gz_bundle_stream gzDummy shaDummy
              defaultTestConfig envNoTime ([recA] ++ [recB])).processed) :=
  ⟨⟨by decide, by decide, by decide⟩,
    governor_graceful_stop gzDummy shaDummy defaultTestConfig envNoTime [recA] [recB]
      ['k'] (by decide) (by decide) (by decide)⟩

/-- One loop iteration keeps entry names and processed records in lockstep:
each processed record contributes exactly one entry named by its sanitized
key, with no collision renaming. -/
theorem processOne_names (cfg : AppConfig) (env : BundleEnv)
    (st : LoopState) (r : S3EventRecord)
    (h : st.entries.map TarEntry.name
      = st.processed.map fun rr => (sanitize_s3_key_core rr.key).getD []) :
    (processOne cfg env st r).entries.map TarEntry.name
      = (processOne cfg env st r).processed.map
          fun rr => (sanitize_s3_key_core rr.key).getD [] := by
  unfold processOne
  rcases hs : sanitize_s3_key_core r.key with _ | sk
  · simpa using h
  · dsimp only
    split_ifs with hsmall
    · rcases env.fetch st.idx with c | _ | _ | _ | _ <;> simp only
      · split_ifs
        · simpa using h
        · simp [h, hs]
      all_goals simpa using h
    · rcases env.fetch st.idx with c | _ | _ | _ | _ <;> simp only
      · simp [h, hs]
      all_goals simpa using h

/-- The loop preserves the name/record lockstep invariant. -/
theorem bundleLoop_names (cfg : AppConfig) (env : BundleEnv)
    (l : List S3EventRecord) (st : LoopState)
    (h : st.entries.map TarEntry.name
      = st.processed.map fun rr => (sanitize_s3_key_core rr.key).getD []) :
    (bundleLoop cfg env l st).1.entries.map TarEntry.name
      = (bundleLoop cfg env l st).1.processed.map
          fun rr => (sanitize_s3_key_core rr.key).getD [] := by
  induction l generalizing st with
  | nil => simpa [bundleLoop] using h
  | cons r rest ih =>
      unfold bundleLoop
      split_ifs
      · exact h
      · exact h
      · exact ih _ (processOne_names cfg env st r h)

/-- C6 (amended): the archive writer performs no collision renaming.  Every
record that is processed contributes exactly one entry whose name is its
sanitized key, in arrival order; two records with the same sanitized path
therefore produce two entries with identical names, and entry names within
one bundle need not be distinct. -/
theorem archive_entry_names_are_sanitized_keys (gz : List TarEntry → List Bytes)
    (sha : Bytes → Bytes) (cfg : AppConfig) (env : BundleEnv)
    (records : List S3EventRecord) :
    (create_tar_gz_bundle_stream gz sha cfg env records).entries.map TarEntry.name
      = (create_tar_gz_bundle_stream gz sha cfg env records).processed.map
          fun rr => (sanitize_s3_key_core rr.key).getD [] := by
  simp only [create_tar_gz_bundle_stream]
  exact bundleLoop_names cfg env records ⟨0, 0, [], []⟩ (by simp)

/-- C6 counterexample: two records whose keys both sanitize to `a.txt` are
written as two entries both literally named `a.txt` — no `(1)` suffix is
appended and the entry names within the bundle are not distinct. -/
theorem collision_suffix_counterexample :
    (create_tar_gz_bundle_stream gzDummy shaDummy defaultTestConfig envOk
        [recDup1, recDup2]).entries.map TarEntry.name
      = ["a.txt".toList, "a.txt".toList]
    ∧ ¬ ((create_tar_gz_bundle_stream gzDummy shaDummy defaultTestConfig envOk
        [recDup1, recDup2]).entries.map TarEntry.name).Nodup := by
  constructor
  · decide
  · decide

/-- Folding unions only grows the accumulator, and every record's mapped ids
end up in the result. -/
theorem get_message_ids_aux (msgMap : Key → Finset MsgId)
    (l : List S3EventRecord) (acc : Finset MsgId) :
    acc ⊆ l.foldl (fun a rr => a ∪ msgMap (recordIdempotencyKey rr)) acc
    ∧ ∀ r ∈ l, msgMap (recordIdempotencyKey r)
        ⊆ l.foldl (fun a rr => a ∪ msgMap (recordIdempotencyKey rr)) acc := by
  induction l generalizing acc with
  | nil => exact ⟨Finset.Subset.refl _, by simp⟩
  | cons x xs ih =>
      obtain ⟨hmono, hall⟩ := ih (acc ∪ msgMap (recordIdempotencyKey x))
      refine ⟨Finset.Subset.trans Finset.subset_union_left hmono, ?_⟩
      intro r hr
      rcases List.mem_cons.mp hr with h | h
      · subst h
        exact Finset.Subset.trans Finset.subset_union_right hmono
      · exact hall r h

/-- Membership in `_get_message_ids_for_s3_records`. -/
theorem mem_get_message_ids (records : List S3EventRecord)
    (msgMap : Key → Finset MsgId) (r : S3EventRecord) (h : r ∈ records) :
    msgMap (recordIdempotencyKey r)
      ⊆ get_message_ids_for_s3_records records msgMap :=
  (get_message_ids_aux msgMap records ∅).2 r h

/-- C1 (amended): when fetching a record's object raises `ObjectNotFound`
during bundling, exactly that record is skipped (no entry, no processed
marker, the loop moves to the next record); being unprocessed, the record
lands in `remaining_records`, and consequently every SQS message id that
contributed it is part of the failed set returned by
`_process_valid_records` — the envelope *does* appear in
`batchItemFailures`. -/
theorem object_not_found_skips_record_and_envelope_fails
    (gz : List TarEntry → List Bytes) (sha : Bytes → Bytes)
    (cfg : AppConfig) (env : BundleEnv) (st : LoopState) (r : S3EventRecord)
    (records : List S3EventRecord) (msgMap : Key → Finset MsgId)
    (bundleKey : Key) (res : StageResult) (sk : Key)
    (hsan : sanitize_s3_key_core r.key = some sk)
    (hfetch : env.fetch st.idx = .notFound)
    (hstage : process_and_stage_batch gz sha cfg env records
        cfg.distributionBucket bundleKey = some res)
    (hmem : r ∈ records) (hnp : r ∉ res.processed) :
    processOne cfg env st r = { st with idx := st.idx + 1 }
    ∧ r ∈ res.remaining
    ∧ msgMap (recordIdempotencyKey r)
        ⊆ process_valid_records gz sha cfg env records msgMap bundleKey := by
  have hskip : processOne cfg env st r = { st with idx := st.idx + 1 } := by
    unfold processOne
    rw [hsan]
    dsimp only
    split_ifs <;> rw [hfetch]
  have hres : res = ⟨(create_tar_gz_bundle_stream gz sha cfg env records).sha256hex,
      (create_tar_gz_bundle_stream gz sha cfg env records).processed,
      records.filter
        (fun rr => rr ∉ (create_tar_gz_bundle_stream gz sha cfg env records).processed),
      [⟨cfg.distributionBucket, bundleKey,
        (create_tar_gz_bundle_stream gz sha cfg env records).bytes,
        (create_tar_gz_bundle_stream gz sha cfg env records).sha256hex⟩]⟩ := by
    by_cases h0 : records = []
    · rw [h0] at hmem; exact absurd hmem (List.not_mem_nil r)
    · by_cases h1 : cfg.distributionBucket = [] ∨ bundleKey = []
      · simp only [process_and_stage_batch, if_neg h0, if_pos h1] at hstage
        exact absurd hstage (by simp)
      · simp only [process_and_stage_batch, if_neg h0, if_neg h1,
          Option.some_inj] at hstage
        exact hstage.symm
  have hrem : r ∈ res.remaining := by
    rw [hres]
    simp only [List.mem_filter, decide_eq_true_eq]
    refine ⟨hmem, ?_⟩
    intro hc
    exact hnp (by rw [hres]; exact hc)
  refine ⟨hskip, hrem, ?_⟩
  unfold process_valid_records
  rw [hstage]
  dsimp only
  rw [if_neg (by intro hempty; rw [hempty] at hrem; exact List.not_mem_nil r hrem)]
  exact mem_get_message_ids res.remaining msgMap r hrem

/-- C1 witness: in the two-record batch `[recA, recB]` the second fetch
reports the object missing; record `recB` is skipped, ends up remaining,
and message `m2` is returned for retry. -/
theorem object_not_found_witness :
    (sanitize_s3_key_core recB.key = some "d/b.log".toList
      ∧ envC1.fetch 1 = .notFound
      ∧ recB ∈ [recA, recB])
    ∧ (processOne defaultTestConfig envC1 ⟨1, 512, [], [recA]⟩ recB
        = { idx := 2, bytesWritten := 512, entries := [], processed := [recA] }
      ∧ recB ∈ (Option.getD (process_and_stage_batch gzDummy shaDummy defaultTestConfig
          envC1 [recA, recB] defaultTestConfig.distributionBucket ['k'])
            ⟨[], [], [], []⟩).remaining
      ∧ msgMapC1 (recordIdempotencyKey recB)
          ⊆ process_valid_records gzDummy shaDummy defaultTestConfig envC1
              [recA, recB] msgMapC1 ['k']) := by
  refine ⟨⟨by decide, by decide, by decide⟩, ?_⟩
  have h := object_not_found_skips_record_and_envelope_fails gzDummy shaDummy
    defaultTestConfig envC1 ⟨1, 512, [], [recA]⟩ recB [recA, recB] msgMapC1 ['k']
    (Option.getD (process_and_stage_batch gzDummy shaDummy defaultTestConfig
      envC1 [recA, recB] defaultTestConfig.distributionBucket ['k']) ⟨[], [], [], []⟩)
    ("d/b.log".toList) (by decide) (by decide) (by decide) (by decide) (by decide)
  exact h

/-- C1 counterexample: for the batch `[recA, recB]` where `recB`'s object is
missing, the archive contains only `a.bin`, yet message `m2` — the
envelope that contributed the missing object — *is* in the failed set
returned to the caller, contradicting the claim that it must not appear
in `batchItemFailures`. -/
theorem object_not_found_envelope_in_failed_counterexample :
    (create_tar_gz_bundle_stream gzDummy shaDummy defaultTestConfig envC1
        [recA, recB]).entries.map TarEntry.name = ["a.bin".toList]
    ∧ "m2".toList ∈ process_valid_records gzDummy shaDummy defaultTestConfig envC1
        [recA, recB] msgMapC1 ['k']
    ∧ "m2".toList ∈ handlerFailedIds gzDummy shaDummy defaultTestConfig envC1
        [recA, recB] msgMapC1 ['k'] ∅ := by
  refine ⟨by decide, by decide, by decide⟩

/-- C7: the active orchestrator has no input-size pre-flight.  A batch whose
total declared size (104857601 bytes) exceeds the default
`max_bundle_input_bytes` (100 MiB = 104857600) is *not* rejected with
`BatchTooLargeError`: `_process_valid_records` proceeds to fetch, bundle
and upload it, and returns an empty failed set. -/
theorem no_input_size_preflight :
    ((104857601 : Int) > defaultTestConfig.maxBundleInputBytes)
    ∧ (process_and_stage_batch gzDummy shaDummy defaultTestConfig envEmptyBody
        [bigRec] defaultTestConfig.distributionBucket ['k']).isSome = true
    ∧ (Option.getD (process_and_stage_batch gzDummy shaDummy defaultTestConfig
        envEmptyBody [bigRec] defaultTestConfig.distributionBucket ['k'])
          ⟨[], [], [], []⟩).processed = [bigRec]
    ∧ ((Option.getD (process_and_stage_batch gzDummy shaDummy defaultTestConfig
        envEmptyBody [bigRec] defaultTestConfig.distributionBucket ['k'])
          ⟨[], [], [], []⟩).uploads).length = 1
    ∧ process_valid_records gzDummy shaDummy defaultTestConfig envEmptyBody
        [bigRec] (fun _ => ∅) ['k'] = ∅ := by
  refine ⟨by decide, by decide, by decide, by decide, by decide⟩

/-! ## `security.sanitize_s3_key`: the refusal set (C4) -/

/-- An accepted key passed every guard of the sanitizer. -/
theorem sanitize_ok_implies (k p : Key) (h : sanitize_s3_key k = some p) :
    utf8Length k ≤ 1024
    ∧ k.any (fun c => c.toNat < 0x20 || c.toNat = 0x7F) = false
    ∧ k.any (fun c => isInvisibleChar c || isCf c) = false
    ∧ pyStrip k = k
    ∧ (pySplit '/' k).any (fun part => decide (pyStrip part ≠ part)) = false
    ∧ (pySplit '/' (bs2fs (stripDrive k))).any isDevicePart = false
    ∧ hasUnicodeDotPair (bs2fs (stripDrive k)) = false
    ∧ (pySplit '/' (bs2fs (stripDrive k))).any
        (fun part => decide (part = ['.', '.'])) = false := by
  unfold sanitize_s3_key at h
  split_ifs at h with h1 h2 h3 h4 h5 h6 h7 h8
  push_neg at h4
  refine ⟨Nat.le_of_not_lt h1, eq_false_of_ne_true h2,
    eq_false_of_ne_true h3, h4.1, eq_false_of_ne_true ?_, eq_false_of_ne_true h5,
    eq_false_of_ne_true h6, eq_false_of_ne_true h8⟩
  intro hc
  exact h4.2 (by simpa using hc)

/-- C4 (amended): `sanitize_s3_key` rejects every key that — after
drive-letter stripping and backslash-to-slash conversion — contains a `..`
path segment; or contains a C0 control (0x00–0x1F), DEL (0x7F) or Unicode
category-Cf code point; or has a drive letter followed by a traversal; or
has a path segment whose base name before the first dot upper-cases to a
Windows reserved device name; or has a segment with leading or trailing
whitespace **where the segments for the whitespace test are those of the
original key split on `/` only** (backslashes are converted only after
the whitespace check, so a whitespace-edged segment that is delimited by
backslashes is not caught — see the counterexample). -/
theorem sanitize_refusal_set (k : Key)
    (h : (pySplit '/' (bs2fs (stripDrive k))).any
          (fun part => decide (part = ['.', '.'])) = true
      ∨ k.any (fun c => c.toNat < 0x20 || c.toNat = 0x7F) = true
      ∨ k.any isCf = true
      ∨ (hasDriveLetter k = true ∧
          (pySplit '/' (bs2fs (k.drop 2))).any
            (fun part => decide (part = ['.', '.'])) = true)
      ∨ (pySplit '/' (bs2fs (stripDrive k))).any isDevicePart = true
      ∨ pyStrip k ≠ k
      ∨ (pySplit '/' k).any (fun part => decide (pyStrip part ≠ part)) = true) :
    sanitize_s3_key k = none := by
  cases hs : sanitize_s3_key k with
  | none => rfl
  | some p =>
    exfalso
    obtain ⟨_, hctrl, hinv, hstripped, hsegs, hdev, _, hdots⟩ := sanitize_ok_implies k p hs
    have hdrive : hasDriveLetter k = true → stripDrive k = k.drop 2 := by
      intro hd
      simp [stripDrive, hd]
    rcases h with h | h | h | h | h | h | h
    · rw [hdots] at h
      exact Bool.false_ne_true h
    · rw [hctrl] at h
      exact Bool.false_ne_true h
    · rcases List.any_eq_true.mp h with ⟨c, hc, hcf⟩
      have hor : (isInvisibleChar c || isCf c) = true := by rw [hcf, Bool.or_true]
      have : k.any (fun c => isInvisibleChar c || isCf c) = true :=
        List.any_eq_true.mpr ⟨c, hc, hor⟩
      rw [hinv] at this
      exact Bool.false_ne_true this
    · rw [hdrive h.1] at hdots
      rw [hdots] at h
      exact Bool.false_ne_true h.2
    · rw [hdev] at h
      exact Bool.false_ne_true h
    · exact h hstripped
    · rw [hsegs] at h
      exact Bool.false_ne_true h

/-- C4 witness: `foo/../passwd` hits the traversal clause and is rejected. -/
theorem sanitize_refusal_set_witness :
    ((pySplit '/' (bs2fs (stripDrive "foo/../passwd".toList))).any
        (fun part => decide (part = ['.', '.'])) = true)
    ∧ sanitize_s3_key "foo/../passwd".toList = none :=
  ⟨by decide, sanitize_refusal_set _ (Or.inl (by decide))⟩

/-- C4 counterexample: in `a \\b` the backslash-converted form `a /b` has
the segment `a ` with trailing whitespace, so the claim as stated demands
rejection; but the source checks whitespace on the raw `/`-split before
converting backslashes, and accepts the key as `a /b`. -/
theorem sanitize_whitespace_segment_counterexample :
    ((pySplit '/' (bs2fs (stripDrive "a \\b".toList))).any
        (fun part => decide (pyStrip part ≠ part)) = true)
    ∧ sanitize_s3_key "a \\b".toList = some "a /b".toList := by
  refine ⟨by decide, by decide⟩

/-! ## Helper lemmas: splitting, joining and scanning keys -/

theorem pySplit_ne_nil (sep : Char) (l : Key) : pySplit sep l ≠ [] := by
  induction l with
  | nil => simp [pySplit]
  | cons c t ih =>
      unfold pySplit
      split_ifs
      · simp
      · cases h : pySplit sep t with
        | nil => exact absurd h ih
        | cons a as => simp [h, List.modifyHead]

theorem pySplit_no_sep (sep : Char) (l : Key) (h : sep ∉ l) : pySplit sep l = [l] := by
  induction l with
  | nil => rfl
  | cons c t ih =>
      have hc : c ≠ sep := fun e => h (e ▸ List.mem_cons_self c t)
      have ht : sep ∉ t := fun e => h (List.mem_cons_of_mem _ e)
      simp [pySplit, hc, ih ht, List.modifyHead]

theorem pySplit_cons_sep (sep : Char) (l : Key) :
    pySplit sep (sep :: l) = [] :: pySplit sep l := by
  simp [pySplit]

theorem pySplit_append_sep (sep : Char) (a b : Key) (h : sep ∉ a) :
    pySplit sep (a ++ sep :: b) = a :: pySplit sep b := by
  induction a with
  | nil => simp [pySplit]
  | cons c a' ih =>
      have hc : c ≠ sep := fun e => h (e ▸ List.mem_cons_self _ _)
      have ha : sep ∉ a' := fun e => h (List.mem_cons_of_mem _ e)
      simp only [List.cons_append, pySplit, if_neg hc, List.append_eq]
      rw [ih ha]
      simp [List.modifyHead]

theorem intercalate_cons₂ (sep : Char) (s s2 : Key) (rest : List Key) :
    List.intercalate [sep] (s :: s2 :: rest)
      = s ++ sep :: List.intercalate [sep] (s2 :: rest) := by
  simp [List.intercalate, List.intersperse]

theorem intercalate_single (sep : Char) (s : Key) :
    List.intercalate [sep] [s] = s := by
  simp [List.intercalate]

theorem intercalate_cons_eq (sep : Char) (x : Key) (rest : List Key) :
    ∃ r, List.intercalate [sep] (x :: rest) = x ++ r := by
  cases rest with
  | nil => exact ⟨[], by simp [intercalate_single]⟩
  | cons y t => exact ⟨sep :: List.intercalate [sep] (y :: t), intercalate_cons₂ sep x y t⟩

theorem mem_intercalate_cases (sep : Char) (comps : List Key) (x : Char)
    (h : x ∈ List.intercalate [sep] comps) : x = sep ∨ ∃ s ∈ comps, x ∈ s := by
  induction comps with
  | nil => simp [List.intercalate] at h
  | cons s rest ih =>
      cases rest with
      | nil =>
          rw [intercalate_single] at h
          exact Or.inr ⟨s, by simp, h⟩
      | cons s2 rest2 =>
          rw [intercalate_cons₂] at h
          rcases List.mem_append.mp h with h | h
          · exact Or.inr ⟨s, by simp, h⟩
          · rcases List.mem_cons.mp h with h | h
            · exact Or.inl h
            · rcases ih h with h | ⟨t, ht, hx⟩
              · exact Or.inl h
              · exact Or.inr ⟨t, List.mem_cons_of_mem _ ht, hx⟩

theorem pySplit_intercalate (sep : Char) (comps : List Key) (hne : comps ≠ [])
    (hnosep : ∀ s ∈ comps, sep ∉ s) :
    pySplit sep (List.intercalate [sep] comps) = comps := by
  induction comps with
  | nil => exact absurd rfl hne
  | cons s rest ih =>
      cases rest with
      | nil => rw [intercalate_single, pySplit_no_sep sep s (hnosep s (by simp))]
      | cons s2 rest2 =>
          rw [intercalate_cons₂, pySplit_append_sep sep s _ (hnosep s (by simp)),
            ih (by simp) (fun t ht => hnosep t (List.mem_cons_of_mem _ ht))]

theorem countDoubleSlash_cons_cons (a b : Char) (t : Key) :
    countDoubleSlash (a :: b :: t)
      = if a = '/' ∧ b = '/' then countDoubleSlash t + 1
        else countDoubleSlash (b :: t) := rfl

theorem countDoubleSlash_cons_ne (a : Char) (l : Key) (h : a ≠ '/') :
    countDoubleSlash (a :: l) = countDoubleSlash l := by
  cases l with
  | nil => rfl
  | cons b t => rw [countDoubleSlash_cons_cons, if_neg (fun hc => h hc.1)]

theorem countDoubleSlash_slash_cons (c : Char) (l : Key) (h : c ≠ '/') :
    countDoubleSlash ('/' :: c :: l) = countDoubleSlash (c :: l) := by
  rw [countDoubleSlash_cons_cons, if_neg (fun hc => h hc.2)]

theorem countDoubleSlash_two_slashes (l : Key) :
    countDoubleSlash ('/' :: '/' :: l) = countDoubleSlash l + 1 := by
  rw [countDoubleSlash_cons_cons, if_pos ⟨rfl, rfl⟩]

theorem countDoubleSlash_append (s x : Key) (h : '/' ∉ s) :
    countDoubleSlash (s ++ x) = countDoubleSlash x := by
  induction s with
  | nil => rfl
  | cons a s' ih =>
      have ha : a ≠ '/' := fun e => h (e ▸ List.mem_cons_self _ _)
      rw [List.cons_append, countDoubleSlash_cons_ne _ _ ha,
        ih (fun e => h (List.mem_cons_of_mem _ e))]

theorem countDoubleSlash_no_slash (l : Key) (h : '/' ∉ l) : countDoubleSlash l = 0 := by
  have := countDoubleSlash_append l [] h
  simpa using this

theorem countDoubleSlash_intercalate (comps : List Key)
    (h : ∀ s ∈ comps, s ≠ [] ∧ '/' ∉ s) :
    countDoubleSlash (List.intercalate ['/'] comps) = 0 := by
  induction comps with
  | nil => rfl
  | cons s rest ih =>
      cases rest with
      | nil =>
          rw [intercalate_single]
          exact countDoubleSlash_no_slash s (h s (by simp)).2
      | cons s2 rest2 =>
          rw [intercalate_cons₂, countDoubleSlash_append _ _ (h s (by simp)).2]
          obtain ⟨c, s2', rfl⟩ := List.exists_cons_of_ne_nil (h s2 (by simp)).1
          obtain ⟨r, hr⟩ := intercalate_cons_eq '/' (c :: s2') rest2
          have hc : c ≠ '/' := fun e => (h (c :: s2') (by simp)).2 (e ▸ List.mem_cons_self _ _)
          rw [hr, List.cons_append, countDoubleSlash_slash_cons _ _ hc, ← List.cons_append,
            ← hr, ih (fun t ht => h t (List.mem_cons_of_mem _ ht))]

theorem bs2fs_eq_self (l : Key) (h : '\\' ∉ l) : bs2fs l = l := by
  induction l with
  | nil => rfl
  | cons c t ih =>
      have hc : c ≠ '\\' := fun e => h (e ▸ List.mem_cons_self _ _)
      show (if c = '\\' then '/' else c) :: bs2fs t = c :: t
      rw [if_neg hc, ih (fun e => h (List.mem_cons_of_mem _ e))]

theorem pct_not_mem_bs2fs (l : Key) (h : '%' ∉ l) : '%' ∉ bs2fs l := by
  intro hc
  rcases List.mem_map.mp hc with ⟨c, hcl, hceq⟩
  by_cases hb : c = '\\'
  · rw [hb] at hceq
    simp at hceq
  · rw [if_neg hb] at hceq
    exact h (hceq ▸ hcl)

/-! ## Helper lemmas: the percent decoder -/

theorem pctTokens_cons_ne (c : Char) (t : Key) (hc : c ≠ '%') :
    pctTokens (c :: t) = .lit c :: pctTokens t := by
  conv_lhs => unfold pctTokens
  rw [if_neg hc]

theorem pctTokens_no_pct (l : Key) (h : '%' ∉ l) : pctTokens l = l.map .lit := by
  induction l with
  | nil => rfl
  | cons c t ih =>
      have hc : c ≠ '%' := fun e => h (e ▸ List.mem_cons_self _ _)
      rw [pctTokens_cons_ne c t hc, List.map_cons,
        ih (fun e => h (List.mem_cons_of_mem _ e))]

theorem renderGo_map_lit (l : Key) : renderGo [] (l.map .lit) = l := by
  induction l with
  | nil => rfl
  | cons c t ih => simp [renderGo, utf8DecodeReplace, ih]

theorem unquote_no_pct (l : Key) (h : '%' ∉ l) : unquote l = l := by
  rw [unquote, pctTokens_no_pct l h, renderGo_map_lit]

theorem decodeLoop_no_pct (n : Nat) (l : Key) (h : '%' ∉ l) : decodeLoop n l = l := by
  cases n with
  | zero => rfl
  | succ m => simp [decodeLoop, unquote_no_pct l h]

theorem sanitizeDecodeCheck_no_pct (kp : Key) (h : '%' ∉ kp) :
    sanitizeDecodeCheck kp = false := by
  unfold sanitizeDecodeCheck
  rw [decodeLoop_no_pct 5 kp h]
  simp

theorem dropWhile_slash_take_one (l : Key) :
    (l.dropWhile (· = '/')).take 1 ≠ ['/'] := by
  induction l with
  | nil => simp
  | cons c t ih =>
      by_cases h : c = '/'
      · simpa [List.dropWhile, h] using ih
      · simp [List.dropWhile, h]

/-- C10 (amended): `sanitize_s3_key` does not always return a relative path.
For an input of the shape `<drive>://c1/.../cn` with at least two
components — *provided* the components are nonempty, not `.` or `..`, free
of slashes, backslashes and percent signs, and the key passes the
sanitizer's length, character, whitespace, device-name and dot-pair
checks — the key is accepted and the leading `//` is preserved in the
result.  Every accepted input that does not satisfy the UNC condition
(drive letter on the original key, `key_posix` starting with exactly one
doubled slash, `//`-count one) has all leading slashes stripped. -/
theorem unc_preserves_leading_double_slash (c : Char) (comps : List Key) (k : Key)
    (hk : k = c :: ':' :: '/' :: '/' :: List.intercalate ['/'] comps)
    (hc : isAsciiAlpha c = true)
    (hcomps : ∀ s ∈ comps, s ≠ [] ∧ s ≠ ['.'] ∧ s ≠ ['.', '.'] ∧ '/' ∉ s ∧ '\\' ∉ s)
    (hlen2 : 2 ≤ comps.length)
    (h1 : ¬ utf8Length k > 1024)
    (h2 : k.any (fun c => c.toNat < 0x20 || c.toNat = 0x7F) = false)
    (h3 : k.any (fun c => isInvisibleChar c || isCf c) = false)
    (h4 : pyStrip k = k)
    (h5 : (pySplit '/' k).any (fun part => decide (pyStrip part ≠ part)) = false)
    (h6 : (pySplit '/' (bs2fs (stripDrive k))).any isDevicePart = false)
    (h7 : hasUnicodeDotPair (bs2fs (stripDrive k)) = false)
    (h8 : '%' ∉ k) :
    sanitize_s3_key k = some ('/' :: '/' :: List.intercalate ['/'] comps)
    ∧ ∀ k2 p2, sanitize_s3_key k2 = some p2 →
        ¬ (hasDriveLetter k2 = true ∧ (bs2fs (stripDrive k2)).take 2 = ['/', '/'] ∧
            (bs2fs (stripDrive k2)).take 3 ≠ ['/', '/', '/'] ∧
            countDoubleSlash (bs2fs (stripDrive k2)) = 1) →
        p2.take 1 ≠ ['/'] := by
  constructor
  · obtain ⟨s1, rest, rfl⟩ := List.exists_cons_of_ne_nil
      (fun e : comps = [] => by rw [e] at hlen2; simp at hlen2)
    obtain ⟨c1, s1', rfl⟩ :=
      List.exists_cons_of_ne_nil (hcomps s1 (List.mem_cons_self _ _)).1
    have hc1 : c1 ≠ '/' :=
      fun e => (hcomps (c1 :: s1') (List.mem_cons_self _ _)).2.2.2.1
        (e ▸ List.mem_cons_self _ _)
    obtain ⟨r, hr⟩ := intercalate_cons_eq '/' (c1 :: s1') rest
    have hdl : hasDriveLetter k = true := by rw [hk]; simp [hasDriveLetter, hc]
    have hsd : stripDrive k = '/' :: '/' :: List.intercalate ['/'] ((c1 :: s1') :: rest) := by
      rw [stripDrive, if_pos hdl, hk]
      rfl
    have hnb : '\\' ∉ ('/' :: '/' :: List.intercalate ['/'] ((c1 :: s1') :: rest) : Key) := by
      intro hm
      rcases List.mem_cons.mp hm with e | hm
      · exact absurd e (by decide)
      rcases List.mem_cons.mp hm with e | hm
      · exact absurd e (by decide)
      rcases mem_intercalate_cases '/' _ _ hm with e | ⟨s, hs, hx⟩
      · exact absurd e (by decide)
      · exact (hcomps s hs).2.2.2.2 hx
    have hkp : bs2fs (stripDrive k)
        = '/' :: '/' :: List.intercalate ['/'] ((c1 :: s1') :: rest) := by
      rw [hsd]
      exact bs2fs_eq_self _ hnb
    have hpct : '%' ∉ bs2fs (stripDrive k) := by
      apply pct_not_mem_bs2fs
      intro hm
      apply h8
      unfold stripDrive at hm
      rw [if_pos hdl] at hm
      exact List.mem_of_mem_drop hm
    have hdecode : sanitizeDecodeCheck (bs2fs (stripDrive k)) = false :=
      sanitizeDecodeCheck_no_pct _ hpct
    have hsplitkp : pySplit '/' (bs2fs (stripDrive k)) = [] :: [] :: (c1 :: s1') :: rest := by
      rw [hkp, pySplit_cons_sep, pySplit_cons_sep,
        pySplit_intercalate '/' _ (by simp) (fun s hs => (hcomps s hs).2.2.2.1)]
    have hdots : (pySplit '/' (bs2fs (stripDrive k))).any
        (fun part => decide (part = ['.', '.'])) = false := by
      rw [hsplitkp]
      rw [List.any_eq_false]
      intro part hp
      simp only [decide_eq_true_eq]
      rcases List.mem_cons.mp hp with e | hp
      · rw [e]; simp
      rcases List.mem_cons.mp hp with e | hp
      · rw [e]; simp
      · exact (hcomps part hp).2.2.1
    unfold sanitize_s3_key
    rw [if_neg h1, if_neg (by simp [h2]), if_neg (by simp [h3]),
      if_neg (not_or.mpr ⟨fun hne => hne h4,
        by rw [h5]; exact Bool.false_ne_true⟩),
      if_neg (by simp [h6]), if_neg (by simp [h7]), if_neg (by simp [hdecode]),
      if_neg (by simp [hdots])]
    unfold sanitizePath
    rw [if_pos ⟨hdl, by rw [hkp]; rfl, by
        rw [hkp, hr]
        intro he
        injection he with e1 he
        injection he with e2 he
        rw [List.cons_append] at he
        have : c1 = '/' := by
          have h3' := congrArg (fun l => List.take 1 l) he
          simpa using h3'
        exact hc1 this, by
        rw [hkp, countDoubleSlash_two_slashes,
          countDoubleSlash_intercalate _ (fun s hs => ⟨(hcomps s hs).1, (hcomps s hs).2.2.2.1⟩)]⟩]
    have hdrop : (bs2fs (stripDrive k)).drop 2
        = List.intercalate ['/'] ((c1 :: s1') :: rest) := by
      rw [hkp]
      rfl
    rw [hdrop, pySplit_intercalate '/' _ (by simp) (fun s hs => (hcomps s hs).2.2.2.1),
      List.filter_eq_self.mpr (fun s hs => decide_eq_true ⟨(hcomps s hs).1, (hcomps s hs).2.1⟩),
      if_pos hlen2]
    show sanitizeFinal _ = _
    unfold sanitizeFinal
    rw [if_neg]
    · rfl
    · rw [hr]
      intro hor
      rcases hor with e | e | e
      · exact List.noConfusion e
      · injection e with e1 _
        exact absurd e1 (by decide)
      · injection e with _ e
        injection e with _ e
        exact List.noConfusion e
  · intro k2 p2 hs2 hnotunc
    unfold sanitize_s3_key at hs2
    split_ifs at hs2
    unfold sanitizePath at hs2
    rw [if_neg hnotunc] at hs2
    dsimp only at hs2
    by_cases hroot : posixNorm (bs2fs (stripDrive k2)) = ['/']
    · rw [if_pos hroot] at hs2
      exact Option.noConfusion hs2
    · rw [if_neg hroot] at hs2
      unfold sanitizeFinal at hs2
      rw [Option.some_bind] at hs2
      split_ifs at hs2
      injection hs2 with hs2
      rw [← hs2]
      exact dropWhile_slash_take_one _

/-- C10 witness: `C://server/share` is accepted as `//server/share`. -/
theorem unc_preserves_leading_double_slash_witness :
    ("C://server/share".toList
        = 'C' :: ':' :: '/' :: '/' :: List.intercalate ['/'] ["server".toList, "share".toList]
      ∧ isAsciiAlpha 'C' = true)
    ∧ sanitize_s3_key "C://server/share".toList
        = some ('/' :: '/' :: List.intercalate ['/'] ["server".toList, "share".toList]) :=
  ⟨⟨by decide, by decide⟩,
    (unc_preserves_leading_double_slash 'C' ["server".toList, "share".toList]
      ("C://server/share".toList) (by decide) (by decide) (by decide) (by decide)
      (by decide) (by decide) (by decide) (by decide) (by decide) (by decide)
      (by decide) (by decide)).1⟩

/-- C10 counterexample: `C://CON/x` has a drive-letter prefix, exactly one
doubled slash and two non-empty path components, so the claim as stated
says it is accepted with the leading `//` preserved; the sanitizer rejects
it (Windows device name). -/
theorem unc_shape_rejected_counterexample :
    hasDriveLetter "C://CON/x".toList = true
    ∧ countDoubleSlash (bs2fs (stripDrive "C://CON/x".toList)) = 1
    ∧ (pySplit '/' "CON/x".toList).all (fun s => !s.isEmpty) = true
    ∧ 2 ≤ (pySplit '/' "CON/x".toList).length
    ∧ sanitize_s3_key "C://CON/x".toList = none := by
  refine ⟨by decide, by decide, by decide, by decide, by decide⟩

/-! ## Length accounting for the percent decoder -/

theorem pctTokens_pct_ok (h1 h2 : Char) (rest2 : Key) (a b : Nat)
    (ha : hexVal h1 = some a) (hb : hexVal h2 = some b) :
    pctTokens ('%' :: h1 :: h2 :: rest2) = .byte (16 * a + b) :: pctTokens rest2 := by
  conv_lhs => unfold pctTokens
  rw [if_pos rfl]
  dsimp only
  rw [ha, hb]

theorem pctTokens_pct_fail (h1 h2 : Char) (rest2 : Key)
    (hfail : hexVal h1 = none ∨ hexVal h2 = none) :
    pctTokens ('%' :: h1 :: h2 :: rest2) = .lit '%' :: pctTokens (h1 :: h2 :: rest2) := by
  conv_lhs => unfold pctTokens
  rw [if_pos rfl]
  dsimp only
  rcases hv1 : hexVal h1 with _ | a <;> rcases hv2 : hexVal h2 with _ | b <;>
    simp_all

theorem pctTokens_pct_one (h1 : Char) : pctTokens ['%', h1] = [.lit '%', .lit h1] := rfl

theorem pctTokens_pct_nil : pctTokens ['%'] = [.lit '%'] := rfl

theorem hexFail_none (h1 h2 : Char)
    (hfail : ∀ a b : Nat, hexVal h1 = some a → hexVal h2 = some b → False) :
    hexVal h1 = none ∨ hexVal h2 = none := by
  rcases hv1 : hexVal h1 with _ | a
  · exact Or.inl rfl
  rcases hv2 : hexVal h2 with _ | b
  · exact Or.inr rfl
  exact (hfail a b hv1 hv2).elim

theorem pctTokens_srcLen (x : Key) :
    ((pctTokens x).map pctSrcLen).sum = x.length := by
  induction x using pctTokens.induct with
  | case1 => rfl
  | case2 h1 h2 rest2 a b hb ha ih =>
      rw [pctTokens_pct_ok h1 h2 rest2 a b ha hb]
      simp only [List.map_cons, List.sum_cons, List.length_cons, pctSrcLen] at ih ⊢
      omega
  | case3 h1 h2 rest2 hfail ih =>
      rw [pctTokens_pct_fail h1 h2 rest2 (hexFail_none h1 h2 hfail)]
      simp only [List.map_cons, List.sum_cons, List.length_cons, pctSrcLen] at ih ⊢
      omega
  | case4 h1 => rfl
  | case5 => rfl
  | case6 c rest hc ih =>
      rw [pctTokens_cons_ne c rest hc]
      simp only [List.map_cons, List.sum_cons, List.length_cons, pctSrcLen] at ih ⊢
      omega

theorem pctTokens_length_le (x : Key) : (pctTokens x).length ≤ x.length := by
  induction x using pctTokens.induct with
  | case1 => decide
  | case2 h1 h2 rest2 a b hb ha ih =>
      rw [pctTokens_pct_ok h1 h2 rest2 a b ha hb]
      simp only [List.length_cons] at ih ⊢
      omega
  | case3 h1 h2 rest2 hfail ih =>
      rw [pctTokens_pct_fail h1 h2 rest2 (hexFail_none h1 h2 hfail)]
      simp only [List.length_cons] at ih ⊢
      omega
  | case4 h1 => simp [pctTokens_pct_one]
  | case5 => simp [pctTokens_pct_nil]
  | case6 c rest hc ih =>
      rw [pctTokens_cons_ne c rest hc]
      simp only [List.length_cons] at ih ⊢
      omega

theorem pctTokens_all_lit_of_length (x : Key)
    (h : (pctTokens x).length = x.length) : pctTokens x = x.map .lit := by
  induction x using pctTokens.induct with
  | case1 => rfl
  | case2 h1 h2 rest2 a b hb ha ih =>
      exfalso
      rw [pctTokens_pct_ok h1 h2 rest2 a b ha hb] at h
      have hle := pctTokens_length_le rest2
      simp only [List.length_cons] at h
      omega
  | case3 h1 h2 rest2 hfail ih =>
      rw [pctTokens_pct_fail h1 h2 rest2 (hexFail_none h1 h2 hfail)] at h ⊢
      simp only [List.length_cons, List.map_cons] at h ⊢
      rw [ih (by simp only [List.length_cons]; omega)]
      simp
  | case4 h1 => rfl
  | case5 => rfl
  | case6 c rest hc ih =>
      rw [pctTokens_cons_ne c rest hc] at h ⊢
      simp only [List.length_cons, List.map_cons] at h ⊢
      rw [ih (by omega)]

theorem utf8DecodeReplace_length_le (bs : Bytes) :
    (utf8DecodeReplace bs).length ≤ bs.length := by
  generalize hn : bs.length = n
  induction n using Nat.strong_induction_on generalizing bs with
  | _ n ih =>
  have hrec : ∀ X : Bytes, X.length < bs.length → (utf8DecodeReplace X).length ≤ X.length := by
    intro X hX
    exact ih X.length (hn ▸ hX) X rfl
  subst hn
  cases bs with
  | nil => simp [utf8DecodeReplace]
  | cons b rest =>
    rw [utf8DecodeReplace.eq_def]
    cases rest with
    | nil =>
        dsimp only
        split_ifs <;> simp [utf8DecodeReplace]
    | cons b1 rest2 =>
        cases rest2 with
        | nil =>
            have r1 := hrec [b1] (by simp only [List.length_cons]; omega)
            have r2 := hrec [] (by simp only [List.length_cons]; omega)
            dsimp only
            split_ifs <;> simp only [List.length_cons, List.length_nil] at * <;> omega
        | cons b2 rest3 =>
            cases rest3 with
            | nil =>
                have r1 := hrec [b1, b2] (by simp only [List.length_cons]; omega)
                have r2 := hrec [b2] (by simp only [List.length_cons]; omega)
                have r3 := hrec [] (by simp only [List.length_cons]; omega)
                dsimp only
                split_ifs <;> simp only [List.length_cons, List.length_nil] at * <;> omega
            | cons b3 rest4 =>
                have r1 := hrec (b1 :: b2 :: b3 :: rest4) (by simp only [List.length_cons]; omega)
                have r2 := hrec (b2 :: b3 :: rest4) (by simp only [List.length_cons]; omega)
                have r3 := hrec (b3 :: rest4) (by simp only [List.length_cons]; omega)
                have r4 := hrec rest4 (by simp only [List.length_cons]; omega)
                dsimp only
                split_ifs <;> simp only [List.length_cons, List.length_nil] at * <;> omega

theorem renderGo_length_le (toks : List PctTok) (pending : Bytes) :
    (renderGo pending toks).length ≤ pending.length + toks.length := by
  induction toks generalizing pending with
  | nil => simpa [renderGo] using utf8DecodeReplace_length_le pending
  | cons t ts ih =>
      cases t with
      | lit c =>
          have h1 := utf8DecodeReplace_length_le pending
          have h2 := ih []
          simp only [renderGo, List.length_append, List.length_cons, List.length_nil] at h2 ⊢
          omega
      | byte b =>
          have h2 := ih (pending ++ [b])
          simp only [renderGo, List.length_append, List.length_cons,
            List.length_nil] at h2 ⊢
          omega

theorem unquote_length_le_toks (x : Key) :
    (unquote x).length ≤ (pctTokens x).length := by
  simpa using renderGo_length_le (pctTokens x) []

theorem unquote_length_le (x : Key) : (unquote x).length ≤ x.length :=
  le_trans (unquote_length_le_toks x) (pctTokens_length_le x)

theorem unquote_fix_all_lit (x : Key) (h : unquote x = x) :
    pctTokens x = x.map .lit := by
  apply pctTokens_all_lit_of_length
  have h1 := unquote_length_le_toks x
  have h2 := pctTokens_length_le x
  rw [h] at h1
  omega

theorem unquote_ne_length_lt (x : Key) (h : unquote x ≠ x) :
    (unquote x).length < x.length := by
  rcases Nat.lt_or_ge (unquote x).length x.length with hlt | hge
  · exact hlt
  · exfalso
    have h1 := unquote_length_le_toks x
    have h2 := pctTokens_length_le x
    have hlen : (pctTokens x).length = x.length := by omega
    have := pctTokens_all_lit_of_length x hlen
    exact h (by rw [unquote, this, renderGo_map_lit])

/-! ## Escape-freedom characterizes the fixpoints of `unquote` -/

theorem hasEsc_cons3 (c h1 h2 : Char) (t : Key) :
    hasEsc (c :: h1 :: h2 :: t)
      = ((decide (c = '%') && (hexVal h1).isSome && (hexVal h2).isSome)
          || hasEsc (h1 :: h2 :: t)) := rfl

theorem hasEsc_short (x : Key) (h : x.length ≤ 2) : hasEsc x = false := by
  match x with
  | [] => rfl
  | [c] => rfl
  | [c, d] => rfl
  | c :: d :: e :: t => simp [List.length_cons] at h

theorem hasEsc_cons_false_tail (c : Char) (t : Key) (h : hasEsc (c :: t) = false) :
    hasEsc t = false := by
  match t with
  | [] => rfl
  | [d] => rfl
  | d :: e :: t' =>
      rw [hasEsc_cons3, Bool.or_eq_false_iff] at h
      exact h.2

theorem pctTokens_of_hasEsc_false (x : Key) (h : hasEsc x = false) :
    pctTokens x = x.map .lit := by
  induction x using pctTokens.induct with
  | case1 => rfl
  | case2 h1 h2 rest2 a b hb ha ih =>
      exfalso
      rw [hasEsc_cons3] at h
      simp [ha, hb] at h
  | case3 h1 h2 rest2 hfail ih =>
      rw [hasEsc_cons3, Bool.or_eq_false_iff] at h
      rw [pctTokens_pct_fail h1 h2 rest2 (hexFail_none h1 h2 hfail), ih h.2]
      simp
  | case4 h1 => rfl
  | case5 => rfl
  | case6 c rest hc ih =>
      rw [pctTokens_cons_ne c rest hc, List.map_cons,
        ih (hasEsc_cons_false_tail c rest h)]

theorem pctTokens_ne_of_hasEsc (x : Key) (h : hasEsc x = true) :
    pctTokens x ≠ x.map .lit := by
  induction x using pctTokens.induct with
  | case1 => exact absurd h (by simp [hasEsc])
  | case2 h1 h2 rest2 a b hb ha ih =>
      rw [pctTokens_pct_ok h1 h2 rest2 a b ha hb]
      intro hcontra
      rw [List.map_cons] at hcontra
      injection hcontra with hhead htail
      exact PctTok.noConfusion hhead
  | case3 h1 h2 rest2 hfail ih =>
      have hw : (decide (('%' : Char) = '%') && (hexVal h1).isSome
          && (hexVal h2).isSome) = false := by
        rcases hexFail_none h1 h2 hfail with hf | hf <;> simp [hf]
      rw [hasEsc_cons3, hw, Bool.false_or] at h
      rw [pctTokens_pct_fail h1 h2 rest2 (hexFail_none h1 h2 hfail), List.map_cons]
      intro hcontra
      injection hcontra with hhead htail
      exact ih h htail
  | case4 h1 => exact absurd h (by rw [hasEsc_short _ (by simp)]; exact Bool.false_ne_true)
  | case5 => exact absurd h (by rw [hasEsc_short _ (by simp)]; exact Bool.false_ne_true)
  | case6 c rest hc ih =>
      have hr : hasEsc rest = true := by
        by_contra hne
        have hfalse : hasEsc rest = false := Bool.eq_false_iff.mpr hne
        have hcr : hasEsc (c :: rest) = false := by
          match rest, hfalse with
          | [], _ => rfl
          | [d], _ => rfl
          | d :: e :: t, hfalse =>
              rw [hasEsc_cons3, hfalse, Bool.or_false]
              simp [hc]
        rw [hcr] at h
        exact Bool.false_ne_true h
      rw [pctTokens_cons_ne c rest hc, List.map_cons]
      intro hcontra
      injection hcontra with hhead htail
      exact ih hr htail

theorem unquote_eq_self_iff (x : Key) : unquote x = x ↔ hasEsc x = false := by
  constructor
  · intro h
    cases hb : hasEsc x with
    | false => rfl
    | true => exact absurd (unquote_fix_all_lit x h) (pctTokens_ne_of_hasEsc x hb)
  · intro h
    rw [unquote, pctTokens_of_hasEsc_false x h, renderGo_map_lit]

/-! ## The decoder distributes over non-hex separator characters -/

theorem pctTokens_pct_single (h1 : Char) :
    pctTokens ['%', h1] = .lit '%' :: pctTokens [h1] := by
  by_cases hc : h1 = '%'
  · subst hc
    rfl
  · rw [pctTokens_pct_one, pctTokens_cons_ne h1 [] hc]
    rfl

theorem pctTokens_append_sep (sep : Char) (hsep : hexVal sep = none) (hpc : sep ≠ '%')
    (u v : Key) : pctTokens (u ++ sep :: v) = pctTokens u ++ .lit sep :: pctTokens v := by
  generalize hn : u.length = n
  induction n using Nat.strong_induction_on generalizing u v with
  | _ n ih =>
  have hrec : ∀ X w : Key, X.length < u.length →
      pctTokens (X ++ sep :: w) = pctTokens X ++ .lit sep :: pctTokens w := by
    intro X w hX
    exact ih X.length (hn ▸ hX) X w rfl
  subst hn
  match u with
  | [] =>
      rw [List.nil_append, pctTokens_cons_ne sep v hpc]
      rfl
  | c :: u' =>
      by_cases hc : c = '%'
      · subst hc
        match u' with
        | [] =>
            match v with
            | [] =>
                show pctTokens ['%', sep] = pctTokens ['%'] ++ .lit sep :: pctTokens []
                rw [pctTokens_pct_single, pctTokens_cons_ne sep [] hpc, pctTokens_pct_nil]
                rfl
            | c2 :: v' =>
                show pctTokens ('%' :: sep :: c2 :: v') = _
                rw [pctTokens_pct_fail sep c2 v' (Or.inl hsep),
                  pctTokens_cons_ne sep (c2 :: v') hpc, pctTokens_pct_nil]
                rfl
        | [h1] =>
            show pctTokens ('%' :: h1 :: sep :: v) = _
            rw [pctTokens_pct_fail h1 sep v (Or.inr hsep),
              show h1 :: sep :: v = [h1] ++ sep :: v from rfl,
              hrec [h1] v (by simp), pctTokens_pct_single]
            rfl
        | h1 :: h2 :: u3 =>
            rcases hv1 : hexVal h1 with _ | a
            · rw [show ('%' :: h1 :: h2 :: u3) ++ sep :: v
                    = '%' :: h1 :: h2 :: (u3 ++ sep :: v) from rfl,
                pctTokens_pct_fail h1 h2 (u3 ++ sep :: v) (Or.inl hv1),
                pctTokens_pct_fail h1 h2 u3 (Or.inl hv1),
                show h1 :: h2 :: (u3 ++ sep :: v) = (h1 :: h2 :: u3) ++ sep :: v from rfl,
                hrec (h1 :: h2 :: u3) v (by simp)]
              rfl
            · rcases hv2 : hexVal h2 with _ | b
              · rw [show ('%' :: h1 :: h2 :: u3) ++ sep :: v
                      = '%' :: h1 :: h2 :: (u3 ++ sep :: v) from rfl,
                  pctTokens_pct_fail h1 h2 (u3 ++ sep :: v) (Or.inr hv2),
                  pctTokens_pct_fail h1 h2 u3 (Or.inr hv2),
                  show h1 :: h2 :: (u3 ++ sep :: v) = (h1 :: h2 :: u3) ++ sep :: v from rfl,
                  hrec (h1 :: h2 :: u3) v (by simp)]
                rfl
              · rw [show ('%' :: h1 :: h2 :: u3) ++ sep :: v
                      = '%' :: h1 :: h2 :: (u3 ++ sep :: v) from rfl,
                  pctTokens_pct_ok h1 h2 (u3 ++ sep :: v) a b hv1 hv2,
                  pctTokens_pct_ok h1 h2 u3 a b hv1 hv2,
                  hrec u3 v (by simp [List.length_cons]; omega)]
                rfl
      · rw [show (c :: u') ++ sep :: v = c :: (u' ++ sep :: v) from rfl,
          pctTokens_cons_ne c (u' ++ sep :: v) hc, pctTokens_cons_ne c u' hc,
          hrec u' v (by simp)]
        rfl

theorem renderGo_append_lit (t1 : List PctTok) (sep : Char) (t2 : List PctTok)
    (pending : Bytes) :
    renderGo pending (t1 ++ .lit sep :: t2)
      = renderGo pending t1 ++ sep :: renderGo [] t2 := by
  induction t1 generalizing pending with
  | nil => rfl
  | cons t ts ih =>
      cases t with
      | lit c =>
          show utf8DecodeReplace pending ++ c :: renderGo [] (ts ++ .lit sep :: t2)
            = (utf8DecodeReplace pending ++ c :: renderGo [] ts) ++ sep :: renderGo [] t2
          rw [ih []]
          simp [List.append_assoc]
      | byte b =>
          show renderGo (pending ++ [b]) (ts ++ .lit sep :: t2) = _
          rw [ih (pending ++ [b])]
          rfl

theorem unquote_append_sep (sep : Char) (hsep : hexVal sep = none) (hpc : sep ≠ '%')
    (u v : Key) : unquote (u ++ sep :: v) = unquote u ++ sep :: unquote v := by
  rw [unquote, pctTokens_append_sep sep hsep hpc, renderGo_append_lit]
  rfl

theorem unquote_nil : unquote [] = [] := rfl

theorem iterU_nil (j : Nat) : iterU j [] = [] := by
  induction j with
  | zero => rfl
  | succ n ih =>
      show iterU n (unquote []) = []
      rw [unquote_nil]
      exact ih

theorem iterU_append_sep (sep : Char) (hsep : hexVal sep = none) (hpc : sep ≠ '%')
    (j : Nat) (u v : Key) :
    iterU j (u ++ sep :: v) = iterU j u ++ sep :: iterU j v := by
  induction j generalizing u v with
  | zero => rfl
  | succ n ih =>
      show iterU n (unquote (u ++ sep :: v)) = _
      rw [unquote_append_sep sep hsep hpc, ih]
      rfl

theorem hasEsc_append_sep (sep : Char) (hsep : hexVal sep = none) (hpc : sep ≠ '%')
    (u v : Key) : hasEsc (u ++ sep :: v) = (hasEsc u || hasEsc v) := by
  generalize hn : u.length = n
  induction n using Nat.strong_induction_on generalizing u v with
  | _ n ih =>
  have hrec : ∀ X w : Key, X.length < u.length →
      hasEsc (X ++ sep :: w) = (hasEsc X || hasEsc w) := by
    intro X w hX
    exact ih X.length (hn ▸ hX) X w rfl
  subst hn
  match u with
  | [] =>
      match v with
      | [] => rfl
      | [d] => rfl
      | d :: e :: t =>
          rw [List.nil_append, hasEsc_cons3]
          simp [hpc, hasEsc]
  | [c] =>
      match v with
      | [] => rfl
      | d :: t =>
          show hasEsc (c :: sep :: d :: t) = (hasEsc [c] || hasEsc (d :: t))
          rw [hasEsc_cons3, show sep :: d :: t = ([] : Key) ++ sep :: (d :: t) from rfl,
            hrec [] (d :: t) (by simp)]
          simp [hsep, hasEsc]
  | [c1, c2] =>
      show hasEsc (c1 :: c2 :: sep :: v) = (hasEsc [c1, c2] || hasEsc v)
      rw [hasEsc_cons3, show c2 :: sep :: v = [c2] ++ sep :: v from rfl,
        hrec [c2] v (by simp)]
      simp [hsep, hasEsc]
  | c1 :: c2 :: c3 :: u3 =>
      show hasEsc (c1 :: c2 :: c3 :: (u3 ++ sep :: v)) = _
      rw [hasEsc_cons3, show c2 :: c3 :: (u3 ++ sep :: v)
          = (c2 :: c3 :: u3) ++ sep :: v from rfl,
        hrec (c2 :: c3 :: u3) v (by simp), hasEsc_cons3, Bool.or_assoc]

/-! ## Distribution over slash-joined component lists -/

theorem iterU_intercalate (sep : Char) (hsep : hexVal sep = none) (hpc : sep ≠ '%')
    (j : Nat) (L : List Key) :
    iterU j (List.intercalate [sep] L) = List.intercalate [sep] (L.map (iterU j)) := by
  induction L with
  | nil => simp [List.intercalate, iterU_nil]
  | cons s rest ih =>
      cases rest with
      | nil => simp [intercalate_single]
      | cons s2 rest2 =>
          rw [intercalate_cons₂, iterU_append_sep sep hsep hpc, ih]
          simp only [List.map_cons, intercalate_cons₂]

theorem hasEsc_intercalate (sep : Char) (hsep : hexVal sep = none) (hpc : sep ≠ '%')
    (L : List Key) :
    hasEsc (List.intercalate [sep] L) = L.any hasEsc := by
  induction L with
  | nil => rfl
  | cons s rest ih =>
      cases rest with
      | nil =>
          rw [intercalate_single]
          simp
      | cons s2 rest2 =>
          rw [intercalate_cons₂, hasEsc_append_sep sep hsep hpc, ih]
          simp

theorem hUDP_cons2 (a b : Char) (t : Key) :
    hasUnicodeDotPair (a :: b :: t)
      = ((decide (a = b) && isWideDot a) || hasUnicodeDotPair (b :: t)) := rfl

theorem hUDP_append_sep (sep : Char) (hw : isWideDot sep = false) (u v : Key) :
    hasUnicodeDotPair (u ++ sep :: v)
      = (hasUnicodeDotPair u || hasUnicodeDotPair v) := by
  generalize hn : u.length = n
  induction n using Nat.strong_induction_on generalizing u v with
  | _ n ih =>
  have hrec : ∀ X w : Key, X.length < u.length →
      hasUnicodeDotPair (X ++ sep :: w)
        = (hasUnicodeDotPair X || hasUnicodeDotPair w) := by
    intro X w hX
    exact ih X.length (hn ▸ hX) X w rfl
  subst hn
  match u with
  | [] =>
      match v with
      | [] => rfl
      | d :: t =>
          rw [List.nil_append, hUDP_cons2]
          by_cases hsd : sep = d
          · subst hsd
            simp [hw, hasUnicodeDotPair]
          · simp [hsd, hasUnicodeDotPair]
  | [c] =>
      show hasUnicodeDotPair (c :: sep :: v)
        = (hasUnicodeDotPair [c] || hasUnicodeDotPair v)
      rw [hUDP_cons2, show sep :: v = ([] : Key) ++ sep :: v from rfl,
        hrec [] v (by simp)]
      by_cases hcs : c = sep
      · subst hcs
        simp [hw, hasUnicodeDotPair]
      · simp [hcs, hasUnicodeDotPair]
  | c1 :: c2 :: u3 =>
      show hasUnicodeDotPair (c1 :: c2 :: (u3 ++ sep :: v)) = _
      rw [hUDP_cons2, show c2 :: (u3 ++ sep :: v)
          = (c2 :: u3) ++ sep :: v from rfl,
        hrec (c2 :: u3) v (by simp), hUDP_cons2, Bool.or_assoc]

theorem hUDP_intercalate (sep : Char) (hw : isWideDot sep = false) (L : List Key) :
    hasUnicodeDotPair (List.intercalate [sep] L) = L.any hasUnicodeDotPair := by
  induction L with
  | nil => rfl
  | cons s rest ih =>
      cases rest with
      | nil =>
          rw [intercalate_single]
          simp
      | cons s2 rest2 =>
          rw [intercalate_cons₂, hUDP_append_sep sep hw, ih]
          simp

theorem pySplit_cons_ne (sep c : Char) (l : Key) (hc : c ≠ sep) :
    pySplit sep (c :: l) = (pySplit sep l).modifyHead (c :: ·) := by
  conv_lhs => unfold pySplit
  rw [if_neg hc]

theorem pySplit_append (sep : Char) (u v : Key) :
    pySplit sep (u ++ sep :: v) = pySplit sep u ++ pySplit sep v := by
  induction u with
  | nil =>
      rw [List.nil_append, pySplit_cons_sep]
      rfl
  | cons c u' ih =>
      by_cases hc : c = sep
      · rw [hc]
        rw [show (sep :: u') ++ sep :: v = sep :: (u' ++ sep :: v) from rfl,
          pySplit_cons_sep, ih, pySplit_cons_sep]
        rfl
      · rw [show (c :: u') ++ sep :: v = c :: (u' ++ sep :: v) from rfl,
          pySplit_cons_ne sep c _ hc, ih, pySplit_cons_ne sep c u' hc]
        rcases hsp : pySplit sep u' with _ | ⟨a, t⟩
        · exact absurd hsp (pySplit_ne_nil sep u')
        · rfl

theorem pySplit_intercalate_flat (sep : Char) (L : List Key) (h : L ≠ []) :
    pySplit sep (List.intercalate [sep] L) = L.flatMap (pySplit sep) := by
  induction L with
  | nil => exact absurd rfl h
  | cons s rest ih =>
      cases rest with
      | nil =>
          rw [intercalate_single]
          simp
      | cons s2 rest2 =>
          rw [intercalate_cons₂, pySplit_append, ih (by simp)]
          simp

theorem intercalate_pySplit (sep : Char) (l : Key) :
    List.intercalate [sep] (pySplit sep l) = l := by
  induction l with
  | nil =>
      rw [show pySplit sep [] = [[]] from rfl, intercalate_single]
  | cons c rest ih =>
      by_cases hc : c = sep
      · rw [hc, pySplit_cons_sep]
        rcases hsp : pySplit sep rest with _ | ⟨a, t⟩
        · exact absurd hsp (pySplit_ne_nil sep rest)
        · rw [intercalate_cons₂, ← hsp, ih]
          rfl
      · rw [pySplit_cons_ne sep c rest hc]
        rcases hsp : pySplit sep rest with _ | ⟨a, t⟩
        · exact absurd hsp (pySplit_ne_nil sep rest)
        · show List.intercalate [sep] ((c :: a) :: t) = c :: rest
          have hstep : List.intercalate [sep] ((c :: a) :: t)
              = c :: List.intercalate [sep] (a :: t) := by
            cases t with
            | nil => rw [intercalate_single, intercalate_single]
            | cons b t' =>
                rw [intercalate_cons₂, intercalate_cons₂]
                rfl
          rw [hstep, ← hsp, ih]

/-! ## The bounded decode loop -/

theorem iterU_succ_outer (j : Nat) (x : Key) :
    iterU (j + 1) x = iterU j (unquote x) := rfl

theorem iterU_add (a b : Nat) (x : Key) :
    iterU (a + b) x = iterU b (iterU a x) := by
  induction a generalizing x with
  | zero =>
      rw [Nat.zero_add]
      rfl
  | succ n ih =>
      rw [show n + 1 + b = n + b + 1 from by omega]
      show iterU (n + b) (unquote x) = iterU b (iterU n (unquote x))
      exact ih (unquote x)

theorem iterU_stable_of (x : Key) (h : unquote x = x) (m : Nat) : iterU m x = x := by
  induction m with
  | zero => rfl
  | succ n ih =>
      show iterU n (unquote x) = x
      rw [h]
      exact ih

theorem iterU_length_le (j : Nat) (x : Key) : (iterU j x).length ≤ x.length := by
  induction j generalizing x with
  | zero => exact le_refl _
  | succ n ih => exact le_trans (ih (unquote x)) (unquote_length_le x)

theorem decodeLoop_spec (n : Nat) (x : Key) :
    ∃ j, j ≤ n ∧ decodeLoop n x = iterU j x
      ∧ (∀ i, i < j → unquote (iterU i x) ≠ iterU i x)
      ∧ (j < n → unquote (iterU j x) = iterU j x) := by
  induction n generalizing x with
  | zero =>
      exact ⟨0, le_refl _, rfl, fun i hi => absurd hi (Nat.not_lt_zero i),
        fun h => absurd h (lt_irrefl 0)⟩
  | succ n ih =>
      by_cases hs : unquote x = x
      · exact ⟨0, Nat.zero_le _, by simp [decodeLoop, hs, iterU],
          fun i hi => absurd hi (Nat.not_lt_zero i), fun _ => hs⟩
      · rcases ih (unquote x) with ⟨j', hj', heq, hinst, hstab⟩
        refine ⟨j' + 1, Nat.succ_le_succ hj', ?_, ?_, ?_⟩
        · rw [show decodeLoop (n + 1) x = decodeLoop n (unquote x) from by
            simp [decodeLoop, hs], heq]
          rfl
        · intro i hi
          cases i with
          | zero => exact hs
          | succ i' => exact hinst i' (Nat.lt_of_succ_lt_succ hi)
        · intro hlt
          exact hstab (Nat.lt_of_succ_lt_succ hlt)

theorem decodeLoop_stable (n : Nat) (x : Key) (h : unquote x = x) :
    decodeLoop n x = x := by
  cases n with
  | zero => rfl
  | succ m => simp [decodeLoop, h]

theorem decodeLoop_eq_self_unquote (n : Nat) (x : Key) (hn : 0 < n)
    (h : decodeLoop n x = x) : unquote x = x := by
  rcases decodeLoop_spec n x with ⟨j, hj, heq, hinst, hstab⟩
  cases j with
  | zero => exact hstab hn
  | succ j' =>
      exfalso
      have h0 : unquote x ≠ x := hinst 0 (Nat.succ_pos j')
      have h1 : (iterU (j' + 1) x).length ≤ (unquote x).length :=
        iterU_length_le j' (unquote x)
      have h2 : (unquote x).length < x.length := unquote_ne_length_lt x h0
      rw [heq] at h
      rw [h] at h1
      omega

/-! ## Characters of split components and of joined paths -/

theorem mem_pySplit_mem (sep : Char) (l : Key) :
    ∀ s ∈ pySplit sep l, ∀ c ∈ s, c ∈ l := by
  induction l with
  | nil =>
      intro s hs c hc
      rw [show pySplit sep [] = [[]] from rfl] at hs
      rw [List.mem_singleton.mp hs] at hc
      simp at hc
  | cons d rest ih =>
      intro s hs c hc
      by_cases hd : d = sep
      · rw [hd, pySplit_cons_sep] at hs
        rcases List.mem_cons.mp hs with h | h
        · rw [h] at hc
          simp at hc
        · exact List.mem_cons_of_mem _ (ih s h c hc)
      · rw [pySplit_cons_ne sep d rest hd] at hs
        rcases hsp : pySplit sep rest with _ | ⟨a, t⟩
        · exact absurd hsp (pySplit_ne_nil sep rest)
        · rw [hsp] at hs
          simp only [List.modifyHead] at hs
          rcases List.mem_cons.mp hs with h | h
          · rw [h] at hc
            rcases List.mem_cons.mp hc with h2 | h2
            · exact h2 ▸ List.mem_cons_self _ _
            · exact List.mem_cons_of_mem _
                (ih a (by rw [hsp]; exact List.mem_cons_self _ _) c h2)
          · exact List.mem_cons_of_mem _
              (ih s (by rw [hsp]; exact List.mem_cons_of_mem _ h) c hc)

theorem sep_not_mem_pySplit (sep : Char) (l : Key) :
    ∀ s ∈ pySplit sep l, sep ∉ s := by
  induction l with
  | nil =>
      intro s hs
      rw [show pySplit sep [] = [[]] from rfl] at hs
      rw [List.mem_singleton.mp hs]
      simp
  | cons d rest ih =>
      intro s hs
      by_cases hd : d = sep
      · rw [hd, pySplit_cons_sep] at hs
        rcases List.mem_cons.mp hs with h | h
        · rw [h]
          simp
        · exact ih s h
      · rw [pySplit_cons_ne sep d rest hd] at hs
        rcases hsp : pySplit sep rest with _ | ⟨a, t⟩
        · exact absurd hsp (pySplit_ne_nil sep rest)
        · rw [hsp] at hs
          simp only [List.modifyHead] at hs
          rcases List.mem_cons.mp hs with h | h
          · rw [h]
            intro hmem
            rcases List.mem_cons.mp hmem with h2 | h2
            · exact hd h2.symm
            · exact ih a (by rw [hsp]; exact List.mem_cons_self _ _) h2
          · exact ih s (by rw [hsp]; exact List.mem_cons_of_mem _ h)

theorem bs2fs_no_backslash (l : Key) : '\\' ∉ bs2fs l := by
  intro h
  rcases List.mem_map.mp h with ⟨c, hcl, hceq⟩
  by_cases hb : c = '\\'
  · rw [if_pos hb] at hceq
    simp at hceq
  · rw [if_neg hb] at hceq
    exact hb hceq

theorem mem_bs2fs (l : Key) (c : Char) (hc : c ∈ bs2fs l) : c = '/' ∨ c ∈ l := by
  rcases List.mem_map.mp hc with ⟨d, hdl, hdeq⟩
  by_cases hb : d = '\\'
  · rw [if_pos hb] at hdeq
    exact Or.inl hdeq.symm
  · rw [if_neg hb] at hdeq
    exact Or.inr (hdeq ▸ hdl)

theorem utf8Length_sublist_le (u v : Key) (h : u.Sublist v) :
    utf8Length u ≤ utf8Length v :=
  List.Sublist.sum_le_sum (h.map utf8CharLen) (fun a _ => Nat.zero_le a)

theorem utf8Length_cons (c : Char) (t : Key) :
    utf8Length (c :: t) = utf8CharLen c + utf8Length t := by
  simp [utf8Length]

theorem utf8Length_bs2fs (l : Key) : utf8Length (bs2fs l) = utf8Length l := by
  induction l with
  | nil => rfl
  | cons c t ih =>
      show utf8Length ((if c = '\\' then '/' else c) :: bs2fs t) = _
      by_cases hb : c = '\\'
      · rw [if_pos hb, hb, utf8Length_cons, utf8Length_cons, ih]
        rfl
      · rw [if_neg hb, utf8Length_cons, utf8Length_cons, ih]

theorem utf8Length_stripDrive_le (k : Key) :
    utf8Length (stripDrive k) ≤ utf8Length k := by
  rw [stripDrive]
  split_ifs
  · exact utf8Length_sublist_le _ _ (List.drop_sublist 2 k)
  · exact le_refl _

theorem intercalate_sublist (sep : Char) {M L : List Key} (h : M.Sublist L) :
    (List.intercalate [sep] M).Sublist (List.intercalate [sep] L) := by
  induction h with
  | slnil => exact List.Sublist.refl _
  | @cons l₁ l₂ a h ih =>
      cases l₂ with
      | nil =>
          rw [List.sublist_nil.mp h]
          exact List.nil_sublist _
      | cons b t =>
          rw [intercalate_cons₂]
          exact ih.trans ((List.sublist_cons_self sep _).trans
            (List.sublist_append_right a _))
  | @cons₂ l₁ l₂ a h ih =>
      cases l₁ with
      | nil =>
          cases l₂ with
          | nil => exact List.Sublist.refl _
          | cons b t =>
              rw [intercalate_single, intercalate_cons₂]
              conv_lhs => rw [← List.append_nil a]
              exact List.Sublist.append_left (List.nil_sublist _) a
      | cons c₁ t₁ =>
          cases l₂ with
          | nil => exact absurd (List.sublist_nil.mp h) (by simp)
          | cons b t =>
              rw [intercalate_cons₂, intercalate_cons₂]
              exact List.Sublist.append_left (ih.cons₂ sep) a

/-! ## `str.strip` fixpoints via first and last characters -/

theorem dropWhile_eq_self_of_head (x : Key)
    (hx : ∀ h, x.head? = some h → pyIsSpace h = false) :
    x.dropWhile pyIsSpace = x := by
  cases x with
  | nil => rfl
  | cons c t =>
      rw [List.dropWhile_cons, if_neg]
      rw [hx c rfl]
      simp

theorem pyStrip_eq_self_of (s : Key)
    (hhead : ∀ h, s.head? = some h → pyIsSpace h = false)
    (hlast : ∀ h, s.getLast? = some h → pyIsSpace h = false) :
    pyStrip s = s := by
  rw [pyStrip, dropWhile_eq_self_of_head s hhead,
    dropWhile_eq_self_of_head s.reverse
      (fun h hh => hlast h (by rw [← List.head?_reverse]; exact hh)),
    List.reverse_reverse]

theorem pyStrip_length_le (s : Key) : (pyStrip s).length ≤ s.length := by
  rw [pyStrip]
  calc ((s.dropWhile pyIsSpace).reverse.dropWhile pyIsSpace).reverse.length
      = ((s.dropWhile pyIsSpace).reverse.dropWhile pyIsSpace).length := by
        rw [List.length_reverse]
    _ ≤ (s.dropWhile pyIsSpace).reverse.length :=
        (List.dropWhile_suffix pyIsSpace).length_le
    _ = (s.dropWhile pyIsSpace).length := by rw [List.length_reverse]
    _ ≤ s.length := (List.dropWhile_suffix pyIsSpace).length_le

theorem pyStrip_self_head (s : Key) (h : pyStrip s = s) :
    ∀ c, s.head? = some c → pyIsSpace c = false := by
  intro c hc
  cases s with
  | nil => simp at hc
  | cons c' t =>
      have hcc : c' = c := by
        simp at hc
        exact hc
      subst hcc
      by_contra hne
      have hsp : pyIsSpace c' = true := Bool.of_not_eq_false hne
      have hlen : (pyStrip (c' :: t)).length ≤ t.length := by
        rw [pyStrip]
        calc (((c' :: t).dropWhile pyIsSpace).reverse.dropWhile
                pyIsSpace).reverse.length
            ≤ ((c' :: t).dropWhile pyIsSpace).length := by
              rw [List.length_reverse]
              exact le_trans (List.dropWhile_suffix pyIsSpace).length_le
                (by rw [List.length_reverse])
          _ = (t.dropWhile pyIsSpace).length := by
              rw [List.dropWhile_cons, if_pos hsp]
          _ ≤ t.length := (List.dropWhile_suffix pyIsSpace).length_le
      rw [h] at hlen
      simp at hlen

theorem pyStrip_self_last (s : Key) (h : pyStrip s = s) :
    ∀ c, s.getLast? = some c → pyIsSpace c = false := by
  intro c hc
  by_contra hne
  have hsp : pyIsSpace c = true := Bool.of_not_eq_false hne
  rcases hd : s.dropWhile pyIsSpace with _ | ⟨d0, dt⟩
  · rw [pyStrip, hd] at h
    simp at h
    rw [h] at hc
    simp at hc
  · have hsuf : (d0 :: dt) <:+ s := hd ▸ List.dropWhile_suffix pyIsSpace
    rcases hsuf with ⟨pre, hpre⟩
    have hlast2 : (d0 :: dt).getLast? = some c := by
      rw [← hpre, List.getLast?_append_of_ne_nil pre (by simp)] at hc
      exact hc
    have hrev : (d0 :: dt).reverse.head? = some c := by
      rw [List.head?_reverse]
      exact hlast2
    have hlen : (pyStrip s).length < s.length := by
      rw [pyStrip, hd]
      rcases hr : (d0 :: dt).reverse with _ | ⟨r0, rt⟩
      · simp at hr
      · have hr0 : r0 = c := by
          rw [hr] at hrev
          simp at hrev
          exact hrev
        rw [List.dropWhile_cons, if_pos (by rw [hr0]; exact hsp)]
        have h1 : (rt.dropWhile pyIsSpace).length ≤ rt.length :=
          (List.dropWhile_suffix pyIsSpace).length_le
        have h2 : rt.length + 1 = (d0 :: dt).length := by
          have := congrArg List.length hr
          simp at this
          simp [this]
        have h3 : (d0 :: dt).length ≤ s.length := by
          rw [← hpre]
          simp
        rw [List.length_reverse]
        omega
    rw [h] at hlen
    exact lt_irrefl _ hlen

/-! ## Joined paths: `bs2fs`, last characters, and root stripping -/

theorem bs2fs_intercalate (L : List Key) :
    bs2fs (List.intercalate ['/'] L) = List.intercalate ['/'] (L.map bs2fs) := by
  induction L with
  | nil => rfl
  | cons s rest ih =>
      cases rest with
      | nil =>
          rw [intercalate_single, List.map_cons, List.map_nil, intercalate_single]
      | cons s2 rest2 =>
          rw [intercalate_cons₂, show bs2fs (s ++ '/' :: List.intercalate ['/'] (s2 :: rest2))
              = bs2fs s ++ bs2fs ('/' :: List.intercalate ['/'] (s2 :: rest2)) from
              List.map_append _ _ _,
            show bs2fs ('/' :: List.intercalate ['/'] (s2 :: rest2))
              = '/' :: bs2fs (List.intercalate ['/'] (s2 :: rest2)) from rfl,
            ih]
          simp only [List.map_cons, intercalate_cons₂]

theorem getLast?_mem_self (L : List Key) (s : Key) (h : L.getLast? = some s) : s ∈ L := by
  induction L with
  | nil => simp at h
  | cons a rest ih =>
      cases rest with
      | nil =>
          simp at h
          rw [h]
          exact List.mem_cons_self _ _
      | cons b t =>
          rw [List.getLast?_cons_cons] at h
          exact List.mem_cons_of_mem _ (ih h)

theorem getLast?_intercalate (sep : Char) (L : List Key) (hne : ∀ s ∈ L, s ≠ []) :
    ∀ s, L.getLast? = some s → (List.intercalate [sep] L).getLast? = s.getLast? := by
  induction L with
  | nil => intro s hs; simp at hs
  | cons a rest ih =>
      intro s hs
      cases rest with
      | nil =>
          simp at hs
          rw [intercalate_single, ← hs]
      | cons b t =>
          rw [List.getLast?_cons_cons] at hs
          have hX : List.intercalate [sep] (b :: t) ≠ [] := by
            rcases intercalate_cons_eq sep b t with ⟨r, hr⟩
            rw [hr]
            rcases hb : b with _ | ⟨c, b'⟩
            · exact absurd rfl (hb ▸ hne b (List.mem_cons_of_mem _ (List.mem_cons_self _ _)))
            · simp
          rw [intercalate_cons₂,
            List.getLast?_append_of_ne_nil a (by simp),
            show sep :: List.intercalate [sep] (b :: t)
              = [sep] ++ List.intercalate [sep] (b :: t) from rfl,
            List.getLast?_append_of_ne_nil [sep] hX]
          exact ih (fun x hx => hne x (List.mem_cons_of_mem _ hx)) s hs

theorem dropWhile_slash_concrete (root : Key)
    (hroot : root = [] ∨ root = ['/'] ∨ root = ['/', '/'])
    (c0 : Char) (hc0 : c0 ≠ '/') (r : Key) :
    (root ++ c0 :: r).dropWhile (· = '/') = c0 :: r := by
  have hstop : (c0 :: r).dropWhile (· = '/') = c0 :: r := by
    rw [List.dropWhile_cons, if_neg (by simp [hc0])]
  rcases hroot with h | h | h <;> rw [h]
  · exact hstop
  · show List.dropWhile (· = '/') ('/' :: c0 :: r) = c0 :: r
    rw [List.dropWhile_cons, if_pos (by simp)]
    exact hstop
  · show List.dropWhile (· = '/') ('/' :: '/' :: c0 :: r) = c0 :: r
    rw [List.dropWhile_cons, if_pos (by simp), List.dropWhile_cons, if_pos (by simp)]
    exact hstop

/-! ## Decomposing an accepting run of the sanitizer -/

theorem sanitize_some_decomp (k p : Key) (h : sanitize_s3_key k = some p) :
    sanitizeDecodeCheck (bs2fs (stripDrive k)) = false
      ∧ (sanitizePath k (bs2fs (stripDrive k))).bind sanitizeFinal = some p := by
  unfold sanitize_s3_key at h
  split_ifs at h with h1 h2 h3 h4 h5 h6 h7 h8
  exact ⟨eq_false_of_ne_true h7, h⟩

theorem posixNorm_cases (kp : Key) :
    posixNorm kp = ['.']
    ∨ ∃ root, (root = [] ∨ root = ['/'] ∨ root = ['/', '/'])
        ∧ posixNorm kp = root
          ++ List.intercalate ['/']
            ((pySplit '/' kp).filter fun s => decide (s ≠ [] ∧ s ≠ ['.'])) := by
  rw [posixNorm]
  split_ifs
  all_goals first
    | exact Or.inl rfl
    | exact Or.inr ⟨['/', '/'], Or.inr (Or.inr rfl), rfl⟩
    | exact Or.inr ⟨['/'], Or.inr (Or.inl rfl), rfl⟩
    | exact Or.inr ⟨[], Or.inl rfl, rfl⟩

theorem sanitize_structure (k p : Key) (h : sanitize_s3_key k = some p)
    (ht : p.take 1 ≠ ['/']) :
    (pySplit '/' (bs2fs (stripDrive k))).filter
        (fun s => decide (s ≠ [] ∧ s ≠ ['.'])) ≠ []
    ∧ p = List.intercalate ['/']
        ((pySplit '/' (bs2fs (stripDrive k))).filter
          fun s => decide (s ≠ [] ∧ s ≠ ['.'])) := by
  rcases sanitize_some_decomp k p h with ⟨-, hbind⟩
  rw [sanitizePath] at hbind
  dsimp only at hbind
  split_ifs at hbind with hunc hlen hroot
  · rw [Option.some_bind, sanitizeFinal] at hbind
    split_ifs at hbind with hrej
    exfalso
    apply ht
    rw [← Option.some_inj.mp hbind]
    rfl
  · exact absurd hbind (by simp)
  · exact absurd hbind (by simp)
  · rw [Option.some_bind, sanitizeFinal] at hbind
    split_ifs at hbind with hrej
    have hp := Option.some_inj.mp hbind
    rcases posixNorm_cases (bs2fs (stripDrive k)) with hdot | ⟨root, hroots, heq⟩
    · exfalso
      apply hrej
      rw [hdot]
      exact Or.inr (Or.inl rfl)
    · rcases hparts : (pySplit '/' (bs2fs (stripDrive k))).filter
          (fun s => decide (s ≠ [] ∧ s ≠ ['.'])) with _ | ⟨s, rest⟩
      · exfalso
        apply hrej
        rw [heq, hparts]
        left
        rcases hroots with hr | hr | hr <;> rw [hr] <;> rfl
      · have hsmem : s ∈ (pySplit '/' (bs2fs (stripDrive k))).filter
            (fun s => decide (s ≠ [] ∧ s ≠ ['.'])) := by
          rw [hparts]
          exact List.mem_cons_self _ _
        obtain ⟨hsplit, hsprop⟩ := List.mem_filter.mp hsmem
        have hsne : s ≠ [] := (of_decide_eq_true hsprop).1
        rcases hs0 : s with _ | ⟨c0, s2⟩
        · exact absurd hs0 hsne
        · have hc0 : c0 ≠ '/' := by
            intro he
            apply sep_not_mem_pySplit '/' _ s hsplit
            rw [hs0, ← he]
            exact List.mem_cons_self _ _
          rcases intercalate_cons_eq '/' (c0 :: s2) rest with ⟨r, hic⟩
          rw [heq, hparts, hs0, hic,
            show root ++ ((c0 :: s2) ++ r) = root ++ c0 :: (s2 ++ r) from by simp,
            dropWhile_slash_concrete root hroots c0 hc0 (s2 ++ r)] at hp
          refine ⟨by simp, ?_⟩
          rw [hic, ← hp, List.cons_append]

/-- C5 (amended): an accepted sanitizer output that does not begin with a
slash, has no drive-letter prefix, and whose slash-separated segments carry
no leading or trailing whitespace is a fixpoint of the sanitizer:
`sanitize_s3_key` accepts it again and returns it unchanged.  (The excluded
cases are real: UNC outputs starting with `//` are not fixpoints, see the
counterexample.) -/
theorem sanitize_idempotent_on_plain_outputs (k p : Key)
    (h : sanitize_s3_key k = some p)
    (ht : p.take 1 ≠ ['/'])
    (hdl : hasDriveLetter p = false)
    (hw : ∀ s ∈ pySplit '/' p, pyStrip s = s) :
    sanitize_s3_key p = some p := by
  obtain ⟨hg1, hg2, hg3, hstripk, hsegk, hdev, hpair, hdots⟩ := sanitize_ok_implies k p h
  obtain ⟨hdec, -⟩ := sanitize_some_decomp k p h
  obtain ⟨hpne, hpeq⟩ := sanitize_structure k p h ht
  set kp := bs2fs (stripDrive k) with hkpdef
  set parts := (pySplit '/' kp).filter (fun s => decide (s ≠ [] ∧ s ≠ ['.']))
    with hpartsdef
  have hsegsid : List.intercalate ['/'] (pySplit '/' kp) = kp := intercalate_pySplit '/' kp
  have hsub : parts.Sublist (pySplit '/' kp) := by
    rw [hpartsdef]
    exact List.filter_sublist _
  have hsubset : ∀ s ∈ parts, s ∈ pySplit '/' kp := fun s hs => hsub.subset hs
  have hq : ∀ s ∈ parts, s ≠ [] ∧ s ≠ ['.'] := by
    intro s hs
    rw [hpartsdef] at hs
    exact of_decide_eq_true (List.mem_filter.mp hs).2
  have hnoslash : ∀ s ∈ parts, '/' ∉ s :=
    fun s hs => sep_not_mem_pySplit '/' kp s (hsubset s hs)
  have hsplitp : pySplit '/' p = parts := by
    rw [hpeq]
    exact pySplit_intercalate '/' parts hpne hnoslash
  have hpchar : ∀ c ∈ p, c = '/' ∨ c ∈ kp := by
    intro c hc
    rw [hpeq] at hc
    rcases mem_intercalate_cases '/' parts c hc with h1 | ⟨s, hsin, hcs⟩
    · exact Or.inl h1
    · exact Or.inr (mem_pySplit_mem '/' kp s (hsubset s hsin) c hcs)
  have hkpchar : ∀ c ∈ kp, c = '/' ∨ c ∈ k := by
    intro c hc
    rw [hkpdef] at hc
    rcases mem_bs2fs _ c hc with h1 | h1
    · exact Or.inl h1
    · right
      rw [stripDrive] at h1
      split_ifs at h1 with hdk
      · exact List.drop_subset 2 k h1
      · exact h1
  have hnb : '\\' ∉ p := by
    intro hmem
    rcases hpchar '\\' hmem with h1 | h1
    · exact absurd h1 (by decide)
    · rw [hkpdef] at h1
      exact bs2fs_no_backslash _ h1
  have hbsp : bs2fs p = p := bs2fs_eq_self p hnb
  have hsdp : stripDrive p = p := by simp [stripDrive, hdl]
  have hkpp : bs2fs (stripDrive p) = p := by rw [hsdp, hbsp]
  obtain ⟨s0, rest0, hpartsC⟩ : ∃ s0 rest0, parts = s0 :: rest0 := by
    rcases hps : parts with _ | ⟨a, b⟩
    · exact absurd hps hpne
    · exact ⟨a, b, rfl⟩
  have hs0mem : s0 ∈ parts := by
    rw [hpartsC]
    exact List.mem_cons_self _ _
  obtain ⟨c0, s0h, hs0C⟩ : ∃ c0 s0h, s0 = c0 :: s0h := by
    rcases hs0 : s0 with _ | ⟨a, b⟩
    · exact absurd hs0 (hq s0 hs0mem).1
    · exact ⟨a, b, rfl⟩
  have hc0 : c0 ≠ '/' := by
    intro he
    exact hnoslash s0 hs0mem (by rw [hs0C, he]; exact List.mem_cons_self _ _)
  obtain ⟨rr, hpC⟩ : ∃ rr, p = c0 :: rr := by
    rcases intercalate_cons_eq '/' s0 rest0 with ⟨r, hr⟩
    refine ⟨s0h ++ r, ?_⟩
    rw [hpeq, hpartsC, hr, hs0C, List.cons_append]
  have hlenp : utf8Length p ≤ 1024 := by
    have h1 : utf8Length p ≤ utf8Length kp := by
      have hsl := intercalate_sublist '/' hsub
      rw [hsegsid] at hsl
      rw [hpeq]
      exact utf8Length_sublist_le _ _ hsl
    have h2 : utf8Length kp ≤ utf8Length k := by
      rw [hkpdef, utf8Length_bs2fs]
      exact utf8Length_stripDrive_le k
    omega
  have hctrl : p.any (fun c => c.toNat < 0x20 || c.toNat = 0x7F) = false := by
    rw [List.any_eq_false]
    intro c hc
    rcases hpchar c hc with h1 | h1
    · rw [h1]
      decide
    · rcases hkpchar c h1 with h2 | h2
      · rw [h2]
        decide
      · exact List.any_eq_false.mp hg2 c h2
  have hinvis : p.any (fun c => isInvisibleChar c || isCf c) = false := by
    rw [List.any_eq_false]
    intro c hc
    rcases hpchar c hc with h1 | h1
    · rw [h1]
      decide
    · rcases hkpchar c h1 with h2 | h2
      · rw [h2]
        decide
      · exact List.any_eq_false.mp hg3 c h2
  have hstrip_p : pyStrip p = p := by
    apply pyStrip_eq_self_of
    · intro hch hh
      have hws0 : pyStrip s0 = s0 := hw s0 (by rw [hsplitp]; exact hs0mem)
      have hhd := pyStrip_self_head s0 hws0 c0 (by rw [hs0C]; rfl)
      rw [hpC] at hh
      simp at hh
      rw [← hh]
      exact hhd
    · intro hch hh
      obtain ⟨slast, hslast⟩ : ∃ s, parts.getLast? = some s := by
        rcases ho : parts.getLast? with _ | y
        · exact absurd (List.getLast?_eq_none_iff.mp ho) hpne
        · exact ⟨y, rfl⟩
      have hslmem : slast ∈ parts := getLast?_mem_self parts slast hslast
      have hwsl : pyStrip slast = slast := hw slast (by rw [hsplitp]; exact hslmem)
      have hlast_eq : p.getLast? = slast.getLast? := by
        rw [hpeq]
        exact getLast?_intercalate '/' parts (fun x hx => (hq x hx).1) slast hslast
      rw [hlast_eq] at hh
      exact pyStrip_self_last slast hwsl hch hh
  have hseg_p : (pySplit '/' p).any (fun part => decide (pyStrip part ≠ part)) = false := by
    rw [hsplitp, List.any_eq_false]
    intro s hs hcontra
    exact (of_decide_eq_true hcontra) (hw s (by rw [hsplitp]; exact hs))
  have hdev_p : (pySplit '/' p).any isDevicePart = false := by
    rw [hsplitp, List.any_eq_false]
    intro s hs
    exact List.any_eq_false.mp hdev s (hsubset s hs)
  have hpair_p : hasUnicodeDotPair p = false := by
    rw [hpeq, hUDP_intercalate '/' (by decide) parts, List.any_eq_false]
    intro s hs hcontra
    have hkp_pair : hasUnicodeDotPair kp = true := by
      rw [← hsegsid, hUDP_intercalate '/' (by decide), List.any_eq_true]
      exact ⟨s, hsubset s hs, hcontra⟩
    rw [hpair] at hkp_pair
    exact Bool.false_ne_true hkp_pair
  have hdots_p : (pySplit '/' p).any (fun part => decide (part = ['.', '.'])) = false := by
    rw [hsplitp, List.any_eq_false]
    intro s hs
    exact List.any_eq_false.mp hdots s (hsubset s hs)
  have hhexslash : hexVal '/' = none := by decide
  have hslashpct : ('/' : Char) ≠ '%' := by decide
  have hdec_p : sanitizeDecodeCheck p = false := by
    rw [sanitizeDecodeCheck]
    rw [sanitizeDecodeCheck] at hdec
    rcases Bool.and_eq_false_iff.mp hdec with hstable | hclean
    · have hkp_eq : decodeLoop 5 kp = kp := not_not.mp (of_decide_eq_false hstable)
      have huq_kp : unquote kp = kp :=
        decodeLoop_eq_self_unquote 5 kp (by norm_num) hkp_eq
      have hesc_kp : hasEsc kp = false := (unquote_eq_self_iff kp).mp huq_kp
      have hesc_segs : (pySplit '/' kp).any hasEsc = false := by
        rw [← hasEsc_intercalate '/' hhexslash hslashpct, hsegsid]
        exact hesc_kp
      have hesc_p : hasEsc p = false := by
        rw [hpeq, hasEsc_intercalate '/' hhexslash hslashpct, List.any_eq_false]
        intro s hs
        exact List.any_eq_false.mp hesc_segs s (hsubset s hs)
      have hdp : decodeLoop 5 p = p :=
        decodeLoop_stable 5 p ((unquote_eq_self_iff p).mpr hesc_p)
      rw [hdp]
      simp
    · obtain ⟨j1, hj1le, heq1, hinst1, hstab1⟩ := decodeLoop_spec 5 kp
      obtain ⟨j2, hj2le, heq2, hinst2, hstab2⟩ := decodeLoop_spec 5 p
      have htrans : ∀ i, unquote (iterU i p) ≠ iterU i p →
          unquote (iterU i kp) ≠ iterU i kp := by
        intro i hne hcontra
        have hesc_ip : hasEsc (iterU i p) = true := by
          cases hb : hasEsc (iterU i p) with
          | true => rfl
          | false => exact absurd ((unquote_eq_self_iff _).mpr hb) hne
        rw [hpeq, iterU_intercalate '/' hhexslash hslashpct i parts,
          hasEsc_intercalate '/' hhexslash hslashpct, List.any_eq_true] at hesc_ip
        rcases hesc_ip with ⟨y, hy, hyesc⟩
        rcases List.mem_map.mp hy with ⟨s, hsin, rfl⟩
        have hesc_ikp : hasEsc (iterU i kp) = false := (unquote_eq_self_iff _).mp hcontra
        rw [← hsegsid, iterU_intercalate '/' hhexslash hslashpct i,
          hasEsc_intercalate '/' hhexslash hslashpct, List.any_eq_false] at hesc_ikp
        exact hesc_ikp (iterU i s) (List.mem_map_of_mem _ (hsubset s hsin)) hyesc
      have hj21 : j2 ≤ j1 := by
        by_contra hgt
        push_neg at hgt
        exact htrans j1 (hinst2 j1 hgt) (hstab1 (by omega))
      have hcomp : parts.map (iterU j2) = parts.map (iterU j1) := by
        apply List.map_congr_left
        intro s hs
        by_cases h5 : j2 < 5
        · have hesc0 : hasEsc (iterU j2 p) = false :=
            (unquote_eq_self_iff _).mp (hstab2 h5)
          rw [hpeq, iterU_intercalate '/' hhexslash hslashpct j2,
            hasEsc_intercalate '/' hhexslash hslashpct, List.any_eq_false] at hesc0
          have hse : hasEsc (iterU j2 s) = false := by
            by_contra hcon
            exact hesc0 (iterU j2 s) (List.mem_map_of_mem _ hs)
              (Bool.of_not_eq_false hcon)
          rw [show j1 = j2 + (j1 - j2) from by omega, iterU_add,
            iterU_stable_of _ ((unquote_eq_self_iff _).mpr hse)]
        · have h25 : j2 = 5 := by omega
          have h15 : j1 = 5 := by omega
          rw [h25, h15]
      have hdecp_eq : decodeLoop 5 p
          = List.intercalate ['/'] (parts.map (iterU j1)) := by
        rw [heq2, hpeq, iterU_intercalate '/' hhexslash hslashpct j2, hcomp]
      have hdeckp_eq : decodeLoop 5 kp
          = List.intercalate ['/'] ((pySplit '/' kp).map (iterU j1)) := by
        rw [heq1]
        conv_lhs => rw [← hsegsid]
        rw [iterU_intercalate '/' hhexslash hslashpct j1]
      rcases Bool.or_eq_false_iff.mp hclean with ⟨hdots_kp, hpair_kp⟩
      rw [hdeckp_eq, bs2fs_intercalate, List.map_map] at hdots_kp hpair_kp
      have hmapne_kp : (pySplit '/' kp).map (bs2fs ∘ iterU j1) ≠ [] := by
        intro hcontra
        rw [List.map_eq_nil_iff] at hcontra
        exact pySplit_ne_nil '/' kp hcontra
      have hmapne_p : parts.map (bs2fs ∘ iterU j1) ≠ [] := by
        intro hcontra
        rw [List.map_eq_nil_iff] at hcontra
        exact hpne hcontra
      rw [pySplit_intercalate_flat '/' _ hmapne_kp] at hdots_kp
      rw [hUDP_intercalate '/' (by decide)] at hpair_kp
      have hsecond : ((pySplit '/' (bs2fs (decodeLoop 5 p))).any
            (fun part => decide (part = ['.', '.']))
          || hasUnicodeDotPair (bs2fs (decodeLoop 5 p))) = false := by
        rw [hdecp_eq, bs2fs_intercalate, List.map_map, Bool.or_eq_false_iff]
        constructor
        · rw [pySplit_intercalate_flat '/' _ hmapne_p, List.any_eq_false]
          intro seg hseg
          rcases List.mem_flatMap.mp hseg with ⟨y, hy, hsegin⟩
          rcases List.mem_map.mp hy with ⟨s, hsin, rfl⟩
          exact List.any_eq_false.mp hdots_kp seg
            (List.mem_flatMap.mpr ⟨_, List.mem_map_of_mem _ (hsubset s hsin), hsegin⟩)
        · rw [hUDP_intercalate '/' (by decide), List.any_eq_false]
          intro y hy hcontra
          rcases List.mem_map.mp hy with ⟨s, hsin, rfl⟩
          exact List.any_eq_false.mp hpair_kp _
            (List.mem_map_of_mem _ (hsubset s hsin)) hcontra
      rw [hsecond, Bool.and_false]
  have hsplitfilter : (pySplit '/' p).filter (fun s => decide (s ≠ [] ∧ s ≠ ['.'])) = parts := by
    rw [hsplitp]
    apply List.filter_eq_self.mpr
    intro s hs
    exact decide_eq_true (hq s hs)
  have htake2 : p.take 2 ≠ ['/', '/'] := by
    rw [hpC]
    intro hcon
    rw [List.take_succ_cons] at hcon
    injection hcon with h1 h2
    exact hc0 h1
  have hposix : posixNorm p = p := by
    rw [posixNorm, hsplitfilter]
    rw [if_neg (show ¬(p.take 2 = ['/', '/'] ∧ p.take 3 ≠ ['/', '/', '/']) from
      fun hcon => htake2 hcon.1)]
    rw [if_neg ht]
    rw [if_neg (show ¬(([] : Key) = [] ∧ parts = []) from fun hcon => hpne hcon.2)]
    rw [List.nil_append, ← hpeq]
  have hpnotdot : p ≠ ['.'] := by
    intro hcon
    rw [hpeq, hpartsC] at hcon
    cases rest0 with
    | nil =>
        rw [intercalate_single] at hcon
        exact (hq s0 hs0mem).2 hcon
    | cons s1 t1 =>
        rw [intercalate_cons₂, hs0C, List.cons_append] at hcon
        injection hcon with h1 h2
        rcases List.append_eq_nil.mp h2 with ⟨-, h3⟩
        exact List.cons_ne_nil _ _ h3
  have hdrop : p.dropWhile (· = '/') = p := by
    rw [hpC, List.dropWhile_cons, if_neg (by simp [hc0])]
  unfold sanitize_s3_key
  rw [hkpp]
  rw [if_neg (by omega : ¬ utf8Length p > 1024),
    if_neg (by rw [hctrl]; exact Bool.false_ne_true),
    if_neg (by rw [hinvis]; exact Bool.false_ne_true),
    if_neg (by
      rintro (h1 | h1)
      · exact h1 hstrip_p
      · rw [hseg_p] at h1
        exact Bool.false_ne_true h1),
    if_neg (by rw [hdev_p]; exact Bool.false_ne_true),
    if_neg (by rw [hpair_p]; exact Bool.false_ne_true),
    if_neg (by rw [hdec_p]; exact Bool.false_ne_true),
    if_neg (by rw [hdots_p]; exact Bool.false_ne_true)]
  rw [sanitizePath]
  rw [if_neg (by
    intro hcon
    rw [hdl] at hcon
    exact Bool.false_ne_true hcon.1)]
  rw [hposix]
  rw [if_neg (by
    rw [hpC]
    intro hcon
    injection hcon with h1 h2
    exact hc0 h1)]
  rw [hdrop, Option.some_bind, sanitizeFinal]
  rw [if_neg (by
    rintro (h1 | h1 | h1)
    · rw [hpC] at h1
      exact List.cons_ne_nil _ _ h1
    · exact hpnotdot h1
    · rw [hpC] at h1
      injection h1 with h2 h3
      exact hc0 h2)]

/-- C5 witness: `C:folder/file.txt` is accepted as `folder/file.txt`, which
satisfies the side conditions, and sanitizing the output returns it
unchanged. -/
theorem sanitize_idempotent_on_plain_outputs_witness :
    (sanitize_s3_key "C:folder/file.txt".toList = some "folder/file.txt".toList
      ∧ "folder/file.txt".toList.take 1 ≠ ['/']
      ∧ hasDriveLetter "folder/file.txt".toList = false
      ∧ ∀ s ∈ pySplit '/' "folder/file.txt".toList, pyStrip s = s)
    ∧ sanitize_s3_key "folder/file.txt".toList = some "folder/file.txt".toList :=
  ⟨⟨by decide, by decide, by decide, by decide⟩,
    sanitize_idempotent_on_plain_outputs "C:folder/file.txt".toList
      "folder/file.txt".toList (by decide) (by decide) (by decide) (by decide)⟩

/-- C5 counterexample: the sanitizer is not idempotent on all of its
outputs.  `C://server/share` is accepted with output `//server/share`
(the UNC carve-out keeps the doubled slash), but sanitizing that output
again strips the leading slashes and returns `server/share`. -/
theorem sanitize_not_idempotent_counterexample :
    sanitize_s3_key "C://server/share".toList = some "//server/share".toList
    ∧ sanitize_s3_key "//server/share".toList = some "server/share".toList
    ∧ "//server/share".toList ≠ "server/share".toList :=
  ⟨by decide, by decide, by decide⟩

/-! ## C8: the idempotency key -/

/-- C8 (amended): for a version token that is not the empty string, the
idempotency key is exactly the percent-encoding of the canonical compact
JSON of the pair of the original key and the unique part (version when
present, else sequencer), and the key never depends on the bucket: two
records agreeing on original key, version and sequencer produce the same
idempotency key.  (A PRESENT-BUT-EMPTY version string is the one deviation
from the spec wording: Python `or` is falsiness-based, so an empty version
falls back to the sequencer — see the counterexample.) -/
theorem idempotency_key_matches_spec (key : Key) (version : Option Key)
    (sequencer : Key) (hv : version ≠ some []) :
    make_idempotency_key key version sequencer
      = specIdempotencyKey key version sequencer
    ∧ ∀ r r' : S3EventRecord, r.originalKey = r'.originalKey →
        r.versionId = r'.versionId → r.sequencer = r'.sequencer →
        recordIdempotencyKey r = recordIdempotencyKey r' := by
  constructor
  · rw [make_idempotency_key.eq_def, specIdempotencyKey, specUniquePart.eq_def]
    cases version with
    | none => rfl
    | some v =>
        have hne : v ≠ [] := fun he => hv (he ▸ rfl)
        simp only [if_neg hne]
  · intro r r' h1 h2 h3
    rw [recordIdempotencyKey, recordIdempotencyKey, h1, h2, h3]

/-- C8 witness: a versioned record, plus two records that differ only in
bucket name and evaluate to the same concrete percent-encoded key. -/
theorem idempotency_key_matches_spec_witness :
    (some "abc".toList ≠ some ([] : Key)
      ∧ make_idempotency_key "a.bin".toList (some "abc".toList) "000A".toList
        = specIdempotencyKey "a.bin".toList (some "abc".toList) "000A".toList)
    ∧ recordIdempotencyKey
        { bucketName := ['b'], key := "a.bin".toList, originalKey := "a.bin".toList,
          versionId := none, sequencer := "000A".toList, size := 3 }
      = recordIdempotencyKey
        { bucketName := ['c'], key := "a.bin".toList, originalKey := "a.bin".toList,
          versionId := none, sequencer := "000A".toList, size := 3 }
    ∧ recordIdempotencyKey
        { bucketName := ['b'], key := "a.bin".toList, originalKey := "a.bin".toList,
          versionId := none, sequencer := "000A".toList, size := 3 }
      = "%7B%22k%22%3A%22a.bin%22%2C%22u%22%3A%22000A%22%7D".toList :=
  ⟨⟨by decide,
    (idempotency_key_matches_spec "a.bin".toList (some "abc".toList) "000A".toList
      (by decide)).1⟩,
   (idempotency_key_matches_spec "a.bin".toList (some "abc".toList) "000A".toList
      (by decide)).2
     { bucketName := ['b'], key := "a.bin".toList, originalKey := "a.bin".toList,
       versionId := none, sequencer := "000A".toList, size := 3 }
     { bucketName := ['c'], key := "a.bin".toList, originalKey := "a.bin".toList,
       versionId := none, sequencer := "000A".toList, size := 3 }
     rfl rfl rfl,
   by decide⟩

/-- C8 counterexample: with a present-but-empty version string the code
falls back to the sequencer (Python `or`), while the spec wording says the
version token is used whenever present. -/
theorem idempotency_key_empty_version_counterexample :
    make_idempotency_key "a.bin".toList (some []) "000A".toList
      ≠ specIdempotencyKey "a.bin".toList (some []) "000A".toList := by
  decide

/-! ## C9: rejection behaviour of the pydantic validation -/

/-- The digit fold is absorbing once it has failed. -/
theorem digitsFold_none (v : Key) :
    v.foldl
      (fun acc c =>
        match acc with
        | none => none
        | some w =>
            if '0' ≤ c ∧ c ≤ '9' then some (w * 10 + (c.toNat - 48)) else none)
      none = none := by
  induction v with
  | nil => rfl
  | cons c t ih => exact ih

theorem digitsToNat?_none_of_mem (s : Key) (c : Char) (hc : c ∈ s)
    (hnd : ¬('0' ≤ c ∧ c ≤ '9')) : digitsToNat? s = none := by
  rcases List.append_of_mem hc with ⟨u, v, huv⟩
  subst huv
  unfold digitsToNat?
  rw [if_neg (by simp), List.foldl_append, List.foldl_cons]
  rcases hacc : List.foldl
      (fun acc c =>
        match acc with
        | none => none
        | some w =>
            if '0' ≤ c ∧ c ≤ '9' then some (w * 10 + (c.toNat - 48)) else none)
      (some 0) u with _ | w
  · rw [hacc]
    exact digitsFold_none v
  · rw [hacc]
    dsimp only
    rw [if_neg hnd]
    exact digitsFold_none v

theorem parseIntCore?_none_of_nodigit (s : Key)
    (h : ∀ c ∈ s, ¬('0' ≤ c ∧ c ≤ '9')) : parseIntCore? s = none := by
  cases s with
  | nil => rfl
  | cons c rest =>
      unfold parseIntCore?
      dsimp only
      have hrest : ∀ x ∈ rest, ¬('0' ≤ x ∧ x ≤ '9') :=
        fun x hx => h x (List.mem_cons_of_mem _ hx)
      have hdig : ∀ u : Key, u ≠ [] → (∀ x ∈ u, ¬('0' ≤ x ∧ x ≤ '9')) →
          digitsToNat? u = none := by
        intro u hu hx
        rcases hu2 : u with _ | ⟨a, b⟩
        · exact absurd hu2 hu
        · exact digitsToNat?_none_of_mem _ a (List.mem_cons_self _ _)
            (hx a (hu2 ▸ List.mem_cons_self _ _))
      split_ifs with h1 h2
      · rcases hr : rest with _ | ⟨a, b⟩
        · rfl
        · rw [hdig (a :: b) (List.cons_ne_nil a b) (hr ▸ hrest)]
          rfl
      · rcases hr : rest with _ | ⟨a, b⟩
        · rfl
        · rw [hdig (a :: b) (List.cons_ne_nil a b) (hr ▸ hrest)]
          rfl
      · rw [hdig (c :: rest) (List.cons_ne_nil c rest) h]
        rfl

theorem mem_rustTrim (s : Key) (c : Char) (hc : c ∈ rustTrim s) : c ∈ s := by
  rw [rustTrim, List.mem_reverse] at hc
  have h1 := (List.dropWhile_suffix rustIsSpace).subset hc
  rw [List.mem_reverse] at h1
  exact (List.dropWhile_suffix rustIsSpace).subset h1

theorem mem_stripDecimalZeros (s : Key) (c : Char)
    (hc : c ∈ stripDecimalZeros s) : c ∈ s := by
  rw [stripDecimalZeros] at hc
  split_ifs at hc
  · exact (List.takeWhile_prefix _).subset hc
  · exact hc

/-- A string with no ASCII digit never coerces to an integer: trimming,
fraction stripping and underscore removal cannot create a digit. -/
theorem strToInt?_none_of_nodigit (s : Key)
    (h : ∀ c ∈ s, ¬('0' ≤ c ∧ c ≤ '9')) : strToInt? s = none := by
  unfold strToInt?
  dsimp only
  have ht : ∀ c ∈ rustTrim s, ¬('0' ≤ c ∧ c ≤ '9') :=
    fun c hc => h c (mem_rustTrim s c hc)
  rw [parseIntCore?_none_of_nodigit (rustTrim s) ht]
  exact parseIntCore?_none_of_nodigit _
    (fun c hc => ht c (mem_stripDecimalZeros _ c (List.mem_filter.mp hc).1))

/-- C9 (amended): the pydantic models reject a record whose bucket object
lacks `name`, or whose object record lacks `key`, `sequencer` or `size`,
or whose `size` is a JSON `null` or object, or a string containing no
ASCII digit at all (every non-numeric string such as `abc`); a failing
bucket or object fails the whole record.  Two claimed rejections do NOT
happen: integer-valued strings coerce (pydantic's lax `int` trims
whitespace, strips a trailing all-zero fraction and removes underscore
separators — see the witness), and negative integer sizes validate —
`size: int` carries no lower bound — see the counterexample. -/
theorem validation_rejects_malformed (bf objf sf fields : List (Key × JVal)) :
    (jget bf "name".toList = none → validateS3Bucket bf = none)
    ∧ (jget objf "key".toList = none → validateS3Object objf = none)
    ∧ (jget objf "sequencer".toList = none → validateS3Object objf = none)
    ∧ (jget objf "size".toList = none → validateS3Object objf = none)
    ∧ (∀ s, jget objf "size".toList = some (.jstr s) →
        (∀ c ∈ s, ¬('0' ≤ c ∧ c ≤ '9')) →
        validateS3Object objf = none)
    ∧ (jget objf "size".toList = some .jnull → validateS3Object objf = none)
    ∧ (∀ g, jget objf "size".toList = some (.jobj g) →
        validateS3Object objf = none)
    ∧ (validateS3Bucket bf = none →
        jget fields "s3".toList = some (.jobj sf) →
        jget sf "bucket".toList = some (.jobj bf) →
        jget sf "object".toList = some (.jobj objf) →
        validateRecord (.jobj fields) = none)
    ∧ (validateS3Object objf = none →
        jget fields "s3".toList = some (.jobj sf) →
        jget sf "bucket".toList = some (.jobj bf) →
        jget sf "object".toList = some (.jobj objf) →
        validateRecord (.jobj fields) = none) := by
  refine ⟨?_, ?_, ?_, ?_, ?_, ?_, ?_, ?_, ?_⟩
  · intro h
    unfold validateS3Bucket
    rw [h]
    rfl
  · intro h
    unfold validateS3Object
    rw [h]
    rfl
  · intro h
    unfold validateS3Object
    rw [h]
    rcases h1 : asStr (jget objf "key".toList) with _ | rawKey
    · rfl
    · dsimp only
      split_ifs
      · rfl
      · rcases h2 : sanitize_s3_key rawKey with _ | safeKey
        · rfl
        · rcases h3 : asInt (jget objf "size".toList) with _ | size
          · rfl
          · rfl
  · intro h
    unfold validateS3Object
    rw [h]
    rcases h1 : asStr (jget objf "key".toList) with _ | rawKey
    · rfl
    · dsimp only
      split_ifs
      · rfl
      · rcases h2 : sanitize_s3_key rawKey with _ | safeKey
        · rfl
        · rfl
  · intro s h hs
    have hnone : strToInt? s = none := strToInt?_none_of_nodigit s hs
    unfold validateS3Object
    rw [h]
    rcases h1 : asStr (jget objf "key".toList) with _ | rawKey
    · rfl
    · dsimp only
      split_ifs
      · rfl
      · rcases h2 : sanitize_s3_key rawKey with _ | safeKey
        · rfl
        · rw [show asInt (some (.jstr s)) = strToInt? s from rfl, hnone]
  · intro h
    unfold validateS3Object
    rw [h]
    rcases h1 : asStr (jget objf "key".toList) with _ | rawKey
    · rfl
    · dsimp only
      split_ifs
      · rfl
      · rcases h2 : sanitize_s3_key rawKey with _ | safeKey
        · rfl
        · rfl
  · intro g h
    unfold validateS3Object
    rw [h]
    rcases h1 : asStr (jget objf "key".toList) with _ | rawKey
    · rfl
    · dsimp only
      split_ifs
      · rfl
      · rcases h2 : sanitize_s3_key rawKey with _ | safeKey
        · rfl
        · rfl
  · intro hb h1 h2 h3
    unfold validateRecord
    dsimp only
    rw [h1]
    dsimp only
    rw [h2, h3]
    dsimp only
    rw [hb]
  · intro ho h1 h2 h3
    unfold validateRecord
    dsimp only
    rw [h1]
    dsimp only
    rw [h2, h3]
    dsimp only
    rw [ho]
    rcases h4 : validateS3Bucket bf with _ | bn
    · rfl
    · rfl

/-- C9 witness: the rejection clauses applied to concrete malformed
records — an empty bucket object, an object with no fields, an object
whose size is the digit-free string `abc`, a record whose bucket fails —
together with concrete lax coercions: `"1_000"` and `" 5.0 "` both
validate as integer sizes. -/
theorem validation_rejects_malformed_witness :
    validateS3Bucket [] = none
    ∧ validateS3Object [] = none
    ∧ validateS3Object
        [("key".toList, .jstr "a.bin".toList),
         ("size".toList, .jstr "abc".toList),
         ("sequencer".toList, .jstr "000A".toList)] = none
    ∧ validateRecord (.jobj [("s3".toList, .jobj
        [("bucket".toList, .jobj []),
         ("object".toList, .jobj [])])]) = none
    ∧ validateS3Object
        [("key".toList, .jstr "a.bin".toList),
         ("size".toList, .jstr "1_000".toList),
         ("sequencer".toList, .jstr "000A".toList)]
      = some { key := "a.bin".toList, originalKey := "a.bin".toList,
               versionId := none, sequencer := "000A".toList, size := 1000 }
    ∧ validateS3Object
        [("key".toList, .jstr "a.bin".toList),
         ("size".toList, .jstr " 5.0 ".toList),
         ("sequencer".toList, .jstr "000A".toList)]
      = some { key := "a.bin".toList, originalKey := "a.bin".toList,
               versionId := none, sequencer := "000A".toList, size := 5 } :=
  ⟨(validation_rejects_malformed [] [] [] []).1 rfl,
   (validation_rejects_malformed [] [] [] []).2.1 rfl,
   (validation_rejects_malformed []
      [("key".toList, .jstr "a.bin".toList),
       ("size".toList, .jstr "abc".toList),
       ("sequencer".toList, .jstr "000A".toList)] [] []).2.2.2.2.1
     "abc".toList rfl (by decide),
   (validation_rejects_malformed [] []
      [("bucket".toList, .jobj []), ("object".toList, .jobj [])]
      [("s3".toList, .jobj
        [("bucket".toList, .jobj []),
         ("object".toList, .jobj [])])]).2.2.2.2.2.2.2.1
     ((validation_rejects_malformed [] [] [] []).1 rfl) rfl rfl rfl,
   rfl,
   rfl⟩

/-- C9 counterexample: a record whose declared size is `-1` passes
validation — `size: int` has no `ge=0` constraint, so the claimed
rejection of negative sizes does not happen. -/
theorem negative_size_accepted_counterexample :
    validateRecord (.jobj [("s3".toList, .jobj
      [("bucket".toList, .jobj [("name".toList, .jstr "b".toList)]),
       ("object".toList, .jobj
         [("key".toList, .jstr "a.bin".toList),
          ("size".toList, .jint (-1)),
          ("sequencer".toList, .jstr "000A".toList)])])])
    = some { bucketName := "b".toList, key := "a.bin".toList,
             originalKey := "a.bin".toList, versionId := none,
             sequencer := "000A".toList, size := -1 } := rfl

end DataAggregator
